import Mathlib

/-!
Verification of the CPU NTT ("FFT") core of the ec-gpu repository.

The Rust source in `ec-gpu-proxy/src/ec_fft_cpu.rs` implements a serial
radix-2 Cooley-Tukey transform (`serial_ec_fft`), a log-decomposed parallel
transform (`parallel_ec_fft`), scalar exponentiation over 64-bit limbs
(`pow_vartime`, in `ec-gpu-gen/src/lib.rs`), and the error enumeration
(`EcError`, in `ec-gpu-program/src/lib.rs`).

Shallow embedding conventions:
* the mutable slice `a: &mut [G::Curve]` becomes a total function `ℕ → G`
  together with the length `2 ^ log_n`; an in-place write becomes a
  functional override of that function at one index;
* loops become fuel-indexed structural recursions whose fuel is the exact
  iteration count of the source loop (`for k in 0..n` has fuel `n`; the
  `while k < n` loop advancing `k` by `2*m` has fuel `n / (2*m)`);
* machine integers (`u32`, `u64`, `usize`) are modelled as `ℕ`; the only
  place a width matters is `pow_vartime`, which reads exactly the 64 low
  bits of each limb, and this is kept explicitly (`%`/bit operations on the
  limb value);
* `G::Scalar` is an arbitrary commutative ring `F` (a field where a claim
  needs roots of unity), `G::Curve` an additive commutative group `G`, and
  scalar-point multiplication `MulAssign<Scalar>` is the module action `•`;
* the thread-pool tasks of `parallel_ec_fft` write disjoint sub-buffers and
  the scope joins them before use, so they are modelled as sequential loops.
-/

namespace EcGpu

/-- One step of the bit-reversal accumulator loop of `bitreverse` in
`ec_fft_cpu.rs` (lines 15-22): `r = (r << 1) | (n & 1); n >>= 1`, iterated
`l` times; the first argument is the remaining iteration count. -/
def bitreverse.go : ℕ → ℕ → ℕ → ℕ
  | 0, _, r => r
  | l + 1, n, r => bitreverse.go l (n >>> 1) ((r <<< 1) ||| (n &&& 1))

/-- Model of `bitreverse(n, l)` from `serial_ec_fft` (`ec_fft_cpu.rs` lines
15-22): reverse the low `l` bits of `n`. -/
def bitreverse (n l : ℕ) : ℕ :=
  bitreverse.go l n 0

/-- Model of the inner bit loop of `pow_vartime` (`ec-gpu-gen/src/lib.rs`
lines 63-76): for `i in (0..64).rev()`, square and conditionally multiply by
`base` when bit `i` of the limb `e` is set.  The third argument is the
remaining iteration count, so bit `i` is processed when the counter is
`i + 1`; calling with counter `64` processes bits `63, 62, …, 0`. -/
def powLimb {F : Type*} [CommRing F] (base : F) (e : ℕ) : ℕ → F → F
  | 0, res => res
  | i + 1, res =>
      let r2 := res * res
      powLimb base e i (if (e >>> i) &&& 1 = 1 then r2 * base else r2)

/-- Model of `pow_vartime(base, exp)` (`ec-gpu-gen/src/lib.rs` lines 63-76):
square-and-multiply over the limbs of `exp` in little-endian order, most
significant limb first (`exp.as_ref().iter().rev()`). -/
def pow_vartime {F : Type*} [CommRing F] (base : F) (exp : List ℕ) : F :=
  exp.reverse.foldl (fun res e => powLimb base e 64 res) 1

/-- The non-negative integer denoted by a little-endian list of 64-bit
limbs; each limb contributes its 64 low bits, exactly the bits
`pow_vartime` reads. -/
def limbsVal : List ℕ → ℕ
  | [] => 0
  | e :: rest => e % 2 ^ 64 + 2 ^ 64 * limbsVal rest

section FftDefs

variable {F : Type*} [CommRing F] {G : Type*} [AddCommGroup G] [Module F G]

/-- Model of the in-place store `a[i] = v` on the functional state. -/
def writeAt (a : ℕ → G) (i : ℕ) (v : G) : ℕ → G :=
  fun q => if q = i then v else a q

/-- Model of `a.swap(i, j)` on the functional state: the value at `i`
becomes the old value at `j` and conversely. -/
def swapAt (a : ℕ → G) (i j : ℕ) : ℕ → G :=
  fun q => if q = i then a j else if q = j then a i else a q

/-- Model of the bit-reverse permutation loop of `serial_ec_fft`
(`ec_fft_cpu.rs` lines 27-32): for `k in 0..fuel` (the call site uses
`fuel = 2 ^ l = n`), swap `a[k]` with `a[bitreverse k l]` when
`k < bitreverse k l`.  The recursion peels the last iteration, so the
swaps are performed for `k = 0, 1, …, fuel - 1` in this order. -/
def bitrevPass (l : ℕ) : ℕ → (ℕ → G) → ℕ → G
  | 0, a => a
  | k + 1, a =>
      let a' := bitrevPass l k a
      let rk := bitreverse k l
      if k < rk then swapAt a' k rk else a'

/-- Model of the inner butterfly loop `for j in 0..m` of `serial_ec_fft`
(`ec_fft_cpu.rs` lines 41-49), starting at index `j` with `fuel` iterations
left (the call site uses `j = 0`, `fuel = m`) and running twiddle `w`:
`t = w • a[k+j+m]`; `a[k+j+m] = a[k+j] - t`; `a[k+j] += t`; `w *= wm`. -/
def innerLoop (wm : F) (k m : ℕ) : ℕ → ℕ → F → (ℕ → G) → ℕ → G
  | 0, _, _, a => a
  | fuel + 1, j, w, a =>
      let t : G := w • a (k + j + m)
      let tmp : G := a (k + j) - t
      let a1 : ℕ → G := writeAt a (k + j + m) tmp
      let a2 : ℕ → G := writeAt a1 (k + j) (a1 (k + j) + t)
      innerLoop wm k m fuel (j + 1) (w * wm) a2

/-- Model of the `while k < n` block loop of `serial_ec_fft`
(`ec_fft_cpu.rs` lines 38-52): starting at offset `k` (call site `k = 0`),
run the inner butterfly loop on the block `[k, k + 2m)` and advance `k` by
`2*m`, for `fuel` blocks.  Since the loop guard is `k < n` and `k` starts
at `0`, the source loop executes exactly `n / (2*m)` iterations, which is
the fuel used at the call site. -/
def blockLoop (wm : F) (m : ℕ) : ℕ → ℕ → (ℕ → G) → ℕ → G
  | 0, _, a => a
  | fuel + 1, k, a => blockLoop wm m fuel (k + 2 * m) (innerLoop wm k m m 0 1 a)

/-- One round of `serial_ec_fft` at butterfly half-width `m`
(`ec_fft_cpu.rs` lines 36-52): compute `w_m = pow_vartime ω [n / (2m)]`
and run the block loop over the whole buffer. -/
def roundStep (n : ℕ) (ω : F) (m : ℕ) (a : ℕ → G) : ℕ → G :=
  blockLoop (pow_vartime ω [n / (2 * m)]) m (n / (2 * m)) 0 a

/-- Model of the outer `for _ in 0..log_n` round loop of `serial_ec_fft`
(`ec_fft_cpu.rs` lines 34-55): run `fuel` rounds, doubling `m` after each
round (call site: fuel `log_n`, starting `m = 1`). -/
def roundsLoop (n : ℕ) (ω : F) : ℕ → ℕ → (ℕ → G) → ℕ → G
  | 0, _, a => a
  | fuel + 1, m, a => roundsLoop n ω fuel (2 * m) (roundStep n ω m a)

/-- Model of `serial_ec_fft(a, omega, log_n)` (`ec_fft_cpu.rs` lines
12-56) on the functional state: the bit-reverse permutation pass followed
by `log_n` butterfly rounds with `m = 1, 2, 4, …`.  Under the source's
assertion the slice length `n` equals `2 ^ log_n`, which is the length
used here. -/
def serial_ec_fft (a : ℕ → G) (ω : F) (log_n : ℕ) : ℕ → G :=
  roundsLoop (2 ^ log_n) ω log_n 1 (bitrevPass log_n (2 ^ log_n) a)

/-- The pointwise effect of one butterfly round at half-width `m` with
twiddle base `wm` (used to characterise `roundStep`): position `q` pairs
with `q + m` (lower half of its block) or `q - m` (upper half). -/
def roundPoint (wm : F) (m : ℕ) (a : ℕ → G) (q : ℕ) : G :=
  if q % (2 * m) < m then a q + wm ^ (q % (2 * m)) • a (q + m)
  else a (q - m) - wm ^ (q % (2 * m) - m) • a q

/-- The number-theoretic transform as stated by the specification:
`out[i] = ∑ j, ω^(i*j) • a[j]` over a buffer of length `N`. -/
def ntt (N : ℕ) (ω : F) (a : ℕ → G) : ℕ → G :=
  fun i => ∑ j ∈ Finset.range N, (ω ^ (i * j)) • a j

/-- Model of the `for s in 0..num_threads` accumulation loop of
`parallel_ec_fft` (`ec_fft_cpu.rs` lines 87-93), starting at `s` with
`fuel` iterations left (call site: `s = 0`, fuel `num_threads`):
`idx = (i + (s << log_new_n)) % (1 << log_n)`; `acc += elt • a[idx]`;
`elt *= ωstep`.  Returns the final `(elt, acc)`. -/
def shuffleS (a : ℕ → G) (ωstep : F) (log_n log_new_n i : ℕ) :
    ℕ → ℕ → F → G → F × G
  | 0, _, elt, acc => (elt, acc)
  | fuel + 1, s, elt, acc =>
      let idx := (i + (s <<< log_new_n)) % 2 ^ log_n
      shuffleS a ωstep log_n log_new_n i fuel (s + 1) (elt * ωstep)
        (acc + elt • a idx)

/-- Model of the `for (i, tmp) in tmp.iter_mut().enumerate()` loop of
`parallel_ec_fft` (`ec_fft_cpu.rs` lines 86-95), starting at `i` with
`fuel` iterations left (call site: `i = 0`, fuel `2 ^ log_new_n`): run the
inner `s` loop accumulating into `tmp[i]`, thread `elt` through, and
multiply `elt` by `ωj` after each `i` iteration. -/
def shuffleI (a : ℕ → G) (ωstep ωj : F) (log_n log_new_n T : ℕ) :
    ℕ → ℕ → F → (ℕ → G) → ℕ → G
  | 0, _, _, tmp => tmp
  | fuel + 1, i, elt, tmp =>
      let r := shuffleS a ωstep log_n log_new_n i T 0 elt (tmp i)
      shuffleI a ωstep ωj log_n log_new_n T fuel (i + 1) (r.1 * ωj)
        (writeAt tmp i r.2)

/-- The sub-buffer of worker `j` after the shuffle phase of
`parallel_ec_fft` (`ec_fft_cpu.rs` lines 81-95): `tmp[j]` starts as the
zero vector of length `2 ^ log_new_n` and is filled by the shuffle with
`omega_j = pow_vartime ω [j]` and
`omega_step = pow_vartime ω [j << log_new_n]`. -/
def fillBuffer (a : ℕ → G) (ω : F) (log_n log_threads j : ℕ) : ℕ → G :=
  shuffleI a (pow_vartime ω [j <<< (log_n - log_threads)]) (pow_vartime ω [j])
    log_n (log_n - log_threads) (2 ^ log_threads) (2 ^ (log_n - log_threads))
    0 1 (fun _ => 0)

/-- The sub-buffer of worker `j` after its sub-FFT (`ec_fft_cpu.rs` lines
97-98): `serial_ec_fft(tmp[j], new_omega, log_new_n)` with
`new_omega = pow_vartime ω [num_threads]`. -/
def subBuffer (a : ℕ → G) (ω : F) (log_n log_threads j : ℕ) : ℕ → G :=
  serial_ec_fft (fillBuffer a ω log_n log_threads j)
    (pow_vartime ω [2 ^ log_threads]) (log_n - log_threads)

/-- Model of `parallel_ec_fft(a, worker, omega, log_n, log_threads)`
(`ec_fft_cpu.rs` lines 63-118).  The worker tasks fill and transform the
`2 ^ log_threads` disjoint sub-buffers (joined by the scope before use),
and the final scatter loop (lines 104-117) writes
`a[idx] = tmp[idx & mask][idx >> log_threads]` with
`mask = (1 << log_threads) - 1` for every `idx` below the length. -/
def parallel_ec_fft (a : ℕ → G) (ω : F) (log_n log_threads : ℕ) : ℕ → G :=
  fun idx =>
    subBuffer a ω log_n log_threads (idx &&& (2 ^ log_threads - 1))
      (idx >>> log_threads)

/-- Boundary model of the call `serial_ec_fft(a, omega, log_n)` on an
actual slice.  The source computes `let n = a.len() as u32` and asserts
`n == 1 << log_n` (`ec_fft_cpu.rs` lines 24-25): the cast truncates the
length to its 32 low bits, so the assert compares `a.len() mod 2^32` with
`2 ^ log_n`, and the `u32` shift `1 << log_n` is itself a panic (shift
overflow) unless `log_n ≤ 31`.  A panic of either kind is modelled as
`none`.  When the assert passes, the function transforms the first
`n = 2 ^ log_n` elements in place and leaves the rest untouched, which is
what the mapped function computes: by the frame property of
`serial_ec_fft`, positions at or beyond `2 ^ log_n` are returned
unchanged, and positions below it read only the prefix. -/
def serial_ec_fft_run (a : List G) (ω : F) (log_n : ℕ) : Option (List G) :=
  if log_n ≤ 31 ∧ a.length % 2 ^ 32 = 2 ^ log_n then
    some ((List.range a.length).map
      (fun i => serial_ec_fft (fun q => a.getD q 0) ω log_n i))
  else none

/-- Boundary model of the call `parallel_ec_fft(a, worker, omega, log_n,
log_threads)`: the function asserts `log_n >= log_threads`
(`ec_fft_cpu.rs` line 69); an assertion failure (a panic) is modelled as
`none`. -/
def parallel_ec_fft_run (a : List G) (ω : F) (log_n log_threads : ℕ) :
    Option (List G) :=
  if log_threads ≤ log_n then
    some ((List.range a.length).map
      (fun i => parallel_ec_fft (fun q => a.getD q 0) ω log_n log_threads i))
  else none

end FftDefs

/-- Placeholder for `rust_gpu_tools::GPUError`, the error type bubbled up
from the GPU driver layer (external to this repository). -/
structure GpuToolsError where
  message : String

/-- Placeholder for `std::io::Error` (external to this repository). -/
structure IoError where
  message : String

/-- Model of `EcError` (`ec-gpu-program/src/lib.rs` lines 10-29) with the
`cuda`/`opencl` features enabled: the enumeration has exactly the four
variants `Simple`, `Aborted`, `GpuTools` and `Io`. -/
inductive EcError where
  | Simple (msg : String)
  | Aborted
  | GpuTools (inner : GpuToolsError)
  | Io (inner : IoError)

/-- Model of `EcResult<T> = Result<T, EcError>`
(`ec-gpu-program/src/lib.rs` line 32). -/
def EcResult (T : Type) : Type := Except EcError T

/-- The integer value of a little-endian limb list as a power-series sum,
as used in the statement of the `pow_vartime` claim. -/
def limbsSum (exp : List ℕ) : ℕ :=
  ∑ i ∈ Finset.range exp.length, exp.getD i 0 * 2 ^ (64 * i)

/-- The kinds of error surfaced by `EcError`, one per variant. -/
inductive EcErrorKind where
  | simple
  | aborted
  | gpuTools
  | io
  deriving DecidableEq, Fintype

/-- Five is prime: lets `ZMod 5` serve as the concrete scalar field of the
witnesses (the tests of the repository use a pairing curve's prime field; any
prime field exercises the same polymorphic code). -/
instance fact_prime_five : Fact (Nat.Prime 5) := ⟨by norm_num⟩

/-- The kind of an `EcError` value. -/
def EcError.kindOf : EcError → EcErrorKind
  | .Simple _ => .simple
  | .Aborted => .aborted
  | .GpuTools _ => .gpuTools
  | .Io _ => .io

/-! ### Arithmetic of `bitreverse` -/

theorem two_mul_or_one (r : ℕ) : 2 * r ||| 1 = 2 * r + 1 := by
  have h := Nat.lor_bit false r true 0
  simpa [Nat.bit_false, Nat.bit_true] using h

theorem bitreverse_go_succ (l n r : ℕ) :
    bitreverse.go (l + 1) n r = bitreverse.go l (n / 2) (2 * r + n % 2) := by
  rw [bitreverse.go]
  have h1 : n >>> 1 = n / 2 := Nat.shiftRight_one n
  have h2 : (r <<< 1) ||| (n &&& 1) = 2 * r + n % 2 := by
    rw [Nat.shiftLeft_eq, Nat.and_one_is_mod, pow_one, mul_comm r 2]
    rcases Nat.mod_two_eq_zero_or_one n with h | h <;> rw [h]
    · simp
    · exact two_mul_or_one r
  rw [h1, h2]

theorem bitreverse_go_accum (l : ℕ) :
    ∀ n r, bitreverse.go l n r = r * 2 ^ l + bitreverse.go l n 0 := by
  induction l with
  | zero => intro n r; simp [bitreverse.go]
  | succ l ih =>
      intro n r
      rw [bitreverse_go_succ, bitreverse_go_succ, ih (n / 2) (2 * r + n % 2),
        ih (n / 2) (2 * 0 + n % 2)]
      ring

theorem bitreverse_succ (n l : ℕ) :
    bitreverse n (l + 1) = n % 2 * 2 ^ l + bitreverse (n / 2) l := by
  rw [bitreverse, bitreverse_go_succ, bitreverse_go_accum, bitreverse]
  ring

theorem bitreverse_zero (n : ℕ) : bitreverse n 0 = 0 := rfl

theorem bitreverse_lt (l : ℕ) : ∀ n, bitreverse n l < 2 ^ l := by
  induction l with
  | zero => intro n; rw [bitreverse_zero]; norm_num
  | succ l ih =>
      intro n
      rw [bitreverse_succ]
      have h1 : n % 2 < 2 := Nat.mod_lt n (by norm_num)
      have h2 : bitreverse (n / 2) l < 2 ^ l := ih (n / 2)
      have h3 : n % 2 * 2 ^ l ≤ 1 * 2 ^ l :=
        Nat.mul_le_mul_right _ (by omega)
      calc n % 2 * 2 ^ l + bitreverse (n / 2) l
          < n % 2 * 2 ^ l + 2 ^ l := by omega
        _ ≤ 1 * 2 ^ l + 2 ^ l := by omega
        _ = 2 ^ (l + 1) := by ring


theorem bitreverse_high (l : ℕ) :
    ∀ n, n < 2 ^ (l + 1) →
      bitreverse n (l + 1) = 2 * bitreverse (n % 2 ^ l) l + n / 2 ^ l := by
  induction l with
  | zero =>
      intro n hn
      rw [bitreverse_succ]
      interval_cases n <;> simp [bitreverse_zero]
  | succ l ih =>
      intro n hn
      have hdiv : n / 2 < 2 ^ (l + 1) := by
        rw [Nat.div_lt_iff_lt_mul (by norm_num : (0:ℕ) < 2)]
        calc n < 2 ^ (l + 1 + 1) := hn
          _ = 2 ^ (l + 1) * 2 := by ring
      rw [bitreverse_succ, ih (n / 2) hdiv, bitreverse_succ]
      have e1 : n % 2 ^ (l + 1) % 2 = n % 2 := Nat.mod_mod_of_dvd n ⟨2 ^ l, by ring⟩
      have e2 : n % 2 ^ (l + 1) / 2 = n / 2 % 2 ^ l := by
        rw [pow_succ, mul_comm (2 ^ l) 2]
        exact Nat.mod_mul_right_div_self n 2 (2 ^ l)
      have e3 : n / 2 / 2 ^ l = n / 2 ^ (l + 1) := by
        rw [Nat.div_div_eq_div_mul]
        congr 1
        ring
      rw [e1, e2, e3]
      ring

theorem bitreverse_bitreverse (l : ℕ) :
    ∀ n, n < 2 ^ l → bitreverse (bitreverse n l) l = n := by
  induction l with
  | zero =>
      intro n hn
      have : n = 0 := by omega
      subst this
      rfl
  | succ l ih =>
      intro n hn
      have hrec : bitreverse n (l + 1) = n % 2 * 2 ^ l + bitreverse (n / 2) l :=
        bitreverse_succ n l
      have hlt : bitreverse (n / 2) l < 2 ^ l := bitreverse_lt l (n / 2)
      have hblt : bitreverse n (l + 1) < 2 ^ (l + 1) := bitreverse_lt (l + 1) n
      rw [bitreverse_high l (bitreverse n (l + 1)) hblt]
      have hmod : bitreverse n (l + 1) % 2 ^ l = bitreverse (n / 2) l := by
        rw [hrec, add_comm, Nat.add_mul_mod_self_right, Nat.mod_eq_of_lt hlt]
      have hdiv : bitreverse n (l + 1) / 2 ^ l = n % 2 := by
        rw [hrec, add_comm, Nat.add_mul_div_right _ _ (Nat.pos_of_ne_zero (by positivity)),
          Nat.div_eq_of_lt hlt, zero_add]
      have hn2 : n / 2 < 2 ^ l := by
        rw [Nat.div_lt_iff_lt_mul (by norm_num : (0:ℕ) < 2)]
        calc n < 2 ^ (l + 1) := hn
          _ = 2 ^ l * 2 := by ring
      rw [hmod, hdiv, ih (n / 2) hn2]
      omega

theorem bitreverse_two_mul (b l : ℕ) :
    bitreverse (2 * b) (l + 1) = bitreverse b l := by
  rw [bitreverse_succ]
  have h1 : 2 * b % 2 = 0 := by omega
  have h2 : 2 * b / 2 = b := by omega
  rw [h1, h2, zero_mul, zero_add]

theorem bitreverse_two_mul_add_one (b l : ℕ) :
    bitreverse (2 * b + 1) (l + 1) = 2 ^ l + bitreverse b l := by
  rw [bitreverse_succ]
  have h1 : (2 * b + 1) % 2 = 1 := by omega
  have h2 : (2 * b + 1) / 2 = b := by omega
  rw [h1, h2, one_mul]

/-! ### Arithmetic of `pow_vartime` -/

theorem powLimb_eq {F : Type*} [CommRing F] (base : F) (e : ℕ) :
    ∀ cnt res, powLimb base e cnt res = res ^ 2 ^ cnt * base ^ (e % 2 ^ cnt) := by
  intro cnt
  induction cnt with
  | zero => intro res; simp [powLimb, Nat.mod_one]
  | succ cnt ih =>
      intro res
      rw [powLimb]
      have hsplit : e % 2 ^ (cnt + 1) = e % 2 ^ cnt + 2 ^ cnt * (e / 2 ^ cnt % 2) := by
        have h := @Nat.mod_mul (2 ^ cnt) 2 e
        rw [← pow_succ] at h
        exact h
      have hbit : (e >>> cnt) &&& 1 = e / 2 ^ cnt % 2 := by
        rw [Nat.shiftRight_eq_div_pow, Nat.and_one_is_mod]
      rcases Nat.mod_two_eq_zero_or_one (e / 2 ^ cnt) with h | h
      · have hcond : ¬((e >>> cnt) &&& 1 = 1) := by rw [hbit, h]; norm_num
        simp only [hcond, if_false]
        rw [ih]
        rw [hsplit, h, mul_zero, add_zero, mul_pow, ← pow_add, pow_succ]
        ring_nf
      · have hcond : (e >>> cnt) &&& 1 = 1 := by rw [hbit, h]
        simp only [hcond, if_true]
        rw [ih]
        rw [hsplit, h, mul_one, mul_pow, mul_pow, ← pow_add, pow_add, pow_succ]
        ring_nf

theorem pow_vartime_eq_limbsVal {F : Type*} [CommRing F] (base : F) (exp : List ℕ) :
    pow_vartime base exp = base ^ limbsVal exp := by
  rw [pow_vartime, List.foldl_reverse]
  induction exp with
  | nil => simp [limbsVal]
  | cons e rest ih =>
      rw [List.foldr_cons, ih, powLimb_eq, limbsVal, ← pow_mul, ← pow_add]
      ring_nf

/-! ### The bit-reverse permutation pass -/

section BitrevPassLemmas

variable {G : Type*}

theorem writeAt_eq (a : ℕ → G) (i q : ℕ) (v : G) (h : q = i) :
    writeAt a i v q = v := by
  rw [writeAt, if_pos h]

theorem writeAt_ne (a : ℕ → G) (i q : ℕ) (v : G) (h : q ≠ i) :
    writeAt a i v q = a q := by
  rw [writeAt, if_neg h]

theorem bitrevPass_spec (l : ℕ) (a : ℕ → G) :
    ∀ t, t ≤ 2 ^ l → ∀ i, i < 2 ^ l →
      bitrevPass l t a i =
        if min i (bitreverse i l) < t then a (bitreverse i l) else a i := by
  intro t
  induction t with
  | zero =>
      intro _ i _
      simp [bitrevPass]
  | succ k ih =>
      intro ht i hi
      have hk2 : k < 2 ^ l := lt_of_lt_of_le (Nat.lt_succ_self k) ht
      have hkle : k ≤ 2 ^ l := le_of_lt hk2
      have hrk2 : bitreverse k l < 2 ^ l := bitreverse_lt l k
      have hkk : bitreverse (bitreverse k l) l = k := bitreverse_bitreverse l k hk2
      have hii : bitreverse (bitreverse i l) l = i := bitreverse_bitreverse l i hi
      have hri2 : bitreverse i l < 2 ^ l := bitreverse_lt l i
      simp only [bitrevPass]
      by_cases hsw : k < bitreverse k l
      · rw [if_pos hsw]
        have hPk : bitrevPass l k a k = a k := by
          rw [ih hkle k hk2, if_neg (by omega)]
        have hPrk :
            bitrevPass l k a (bitreverse k l) = a (bitreverse k l) := by
          rw [ih hkle (bitreverse k l) hrk2, hkk, if_neg (by omega)]
        rcases eq_or_ne i k with hik | hik
        · simp only [swapAt, if_pos hik]
          rw [hPrk, hik, if_pos (by omega)]
        · rcases eq_or_ne i (bitreverse k l) with hirk | hirk
          · simp only [swapAt, if_neg hik, if_pos hirk]
            rw [hPk, hirk, hkk, if_pos (by omega)]
          · have hrik : bitreverse i l ≠ k := fun h => hirk (by rw [← h, hii])
            simp only [swapAt, if_neg hik, if_neg hirk]
            rw [ih hkle i hi]
            rcases Nat.lt_or_ge (min i (bitreverse i l)) k with hlt | hge
            · rw [if_pos hlt, if_pos (by omega)]
            · rw [if_neg (by omega), if_neg (by omega)]
      · rw [if_neg hsw]
        rw [ih hkle i hi]
        rcases eq_or_ne i k with hik | hik
        · rw [hik]
          rcases eq_or_ne (bitreverse k l) k with heq | hne
          · rw [heq, if_neg (by omega), if_pos (by omega)]
          · rw [if_pos (by omega), if_pos (by omega)]
        · rcases eq_or_ne i (bitreverse k l) with hirk | hirk
          · rw [hirk, hkk]
            rw [if_pos (by omega), if_pos (by omega)]
          · have hrik : bitreverse i l ≠ k := fun h => hirk (by rw [← h, hii])
            rcases Nat.lt_or_ge (min i (bitreverse i l)) k with hlt | hge
            · rw [if_pos hlt, if_pos (by omega)]
            · rw [if_neg (by omega), if_neg (by omega)]

theorem bitrevPass_eq (l : ℕ) (a : ℕ → G) (i : ℕ) (hi : i < 2 ^ l) :
    bitrevPass l (2 ^ l) a i = a (bitreverse i l) := by
  rw [bitrevPass_spec l a (2 ^ l) le_rfl i hi, if_pos (by omega)]

theorem bitrevPass_frame (l : ℕ) (a : ℕ → G) :
    ∀ t, t ≤ 2 ^ l → ∀ i, 2 ^ l ≤ i → bitrevPass l t a i = a i := by
  intro t
  induction t with
  | zero => intro _ i _; rfl
  | succ k ih =>
      intro ht i hi
      have hk2 : k < 2 ^ l := lt_of_lt_of_le (Nat.lt_succ_self k) ht
      have hrk2 : bitreverse k l < 2 ^ l := bitreverse_lt l k
      simp only [bitrevPass]
      by_cases hsw : k < bitreverse k l
      · rw [if_pos hsw]
        have h1 : i ≠ k := by omega
        have h2 : i ≠ bitreverse k l := by omega
        simp only [swapAt, if_neg h1, if_neg h2]
        exact ih (le_of_lt hk2) i hi
      · rw [if_neg hsw]
        exact ih (le_of_lt hk2) i hi

end BitrevPassLemmas

theorem pow_vartime_single {F : Type*} [CommRing F] (base : F) (e : ℕ)
    (h : e < 2 ^ 64) : pow_vartime base [e] = base ^ e := by
  rw [pow_vartime_eq_limbsVal]
  congr 1
  show e % 2 ^ 64 + 2 ^ 64 * limbsVal [] = e
  rw [limbsVal]
  omega

/-! ### The butterfly loops -/

section ButterflyLemmas

variable {F : Type*} [CommRing F] {G : Type*} [AddCommGroup G] [Module F G]

theorem innerLoop_frame (wm : F) (k m : ℕ) :
    ∀ fuel j0 w (a : ℕ → G) q,
      (q < k + j0 ∨ k + j0 + fuel ≤ q) →
      (q < k + j0 + m ∨ k + j0 + m + fuel ≤ q) →
      innerLoop wm k m fuel j0 w a q = a q := by
  intro fuel
  induction fuel with
  | zero => intro j0 w a q _ _; rfl
  | succ fuel ih =>
      intro j0 w a q h1 h2
      simp only [innerLoop]
      rw [ih (j0 + 1) (w * wm) _ q (by omega) (by omega)]
      rw [writeAt_ne _ _ _ _ (by omega), writeAt_ne _ _ _ _ (by omega)]

theorem innerLoop_lower (wm : F) (k m : ℕ) :
    ∀ fuel j0 w (a : ℕ → G) j', j0 ≤ j' → j' < j0 + fuel → j0 + fuel ≤ m →
      innerLoop wm k m fuel j0 w a (k + j') =
        a (k + j') + (w * wm ^ (j' - j0)) • a (k + j' + m) := by
  intro fuel
  induction fuel with
  | zero => intro j0 w a j' h1 h2 h3; omega
  | succ fuel ih =>
      intro j0 w a j' h1 h2 h3
      simp only [innerLoop]
      rcases eq_or_ne j' j0 with he | hne
      · rw [innerLoop_frame wm k m fuel (j0 + 1) _ _ (k + j') (by omega) (by omega)]
        rw [writeAt_eq _ _ _ _ (by omega)]
        rw [writeAt_ne _ _ _ _ (by omega)]
        rw [he]
        have hp : j0 - j0 = 0 := by omega
        rw [hp, pow_zero, mul_one]
      · rw [ih (j0 + 1) (w * wm) _ j' (by omega) (by omega) (by omega)]
        rw [writeAt_ne _ _ _ _ (by omega), writeAt_ne _ _ _ _ (by omega)]
        rw [writeAt_ne _ _ _ _ (by omega), writeAt_ne _ _ _ _ (by omega)]
        have hp : j' - j0 = j' - (j0 + 1) + 1 := by omega
        rw [hp, pow_succ]
        ring_nf

theorem innerLoop_upper (wm : F) (k m : ℕ) :
    ∀ fuel j0 w (a : ℕ → G) j', j0 ≤ j' → j' < j0 + fuel → j0 + fuel ≤ m →
      innerLoop wm k m fuel j0 w a (k + j' + m) =
        a (k + j') - (w * wm ^ (j' - j0)) • a (k + j' + m) := by
  intro fuel
  induction fuel with
  | zero => intro j0 w a j' h1 h2 h3; omega
  | succ fuel ih =>
      intro j0 w a j' h1 h2 h3
      simp only [innerLoop]
      rcases eq_or_ne j' j0 with he | hne
      · rw [innerLoop_frame wm k m fuel (j0 + 1) _ _ (k + j' + m) (by omega) (by omega)]
        rw [writeAt_ne _ _ _ _ (by omega)]
        rw [writeAt_eq _ _ _ _ (by omega)]
        rw [he]
        have hp : j0 - j0 = 0 := by omega
        rw [hp, pow_zero, mul_one]
      · rw [ih (j0 + 1) (w * wm) _ j' (by omega) (by omega) (by omega)]
        rw [writeAt_ne _ _ _ _ (by omega), writeAt_ne _ _ _ _ (by omega)]
        rw [writeAt_ne _ _ _ _ (by omega), writeAt_ne _ _ _ _ (by omega)]
        have hp : j' - j0 = j' - (j0 + 1) + 1 := by omega
        rw [hp, pow_succ]
        ring_nf

theorem blockLoop_frame (wm : F) (m : ℕ) :
    ∀ cnt k0 (a : ℕ → G) q, (q < k0 ∨ k0 + 2 * m * cnt ≤ q) →
      blockLoop wm m cnt k0 a q = a q := by
  intro cnt
  induction cnt with
  | zero => intro k0 a q _; rfl
  | succ cnt ih =>
      intro k0 a q hq
      have hmul : 2 * m * (cnt + 1) = 2 * m * cnt + 2 * m := by ring
      simp only [blockLoop]
      rw [ih (k0 + 2 * m) _ q (by omega)]
      exact innerLoop_frame wm k0 m m 0 1 a q (by omega) (by omega)

theorem blockLoop_point (wm : F) (m : ℕ) :
    ∀ cnt k0 (a : ℕ → G) b j, b < cnt → j < 2 * m →
      blockLoop wm m cnt k0 a (k0 + 2 * m * b + j) =
        if j < m then
          a (k0 + 2 * m * b + j) + wm ^ j • a (k0 + 2 * m * b + j + m)
        else
          a (k0 + 2 * m * b + (j - m)) - wm ^ (j - m) • a (k0 + 2 * m * b + j) := by
  intro cnt
  induction cnt with
  | zero => intro k0 a b j hb _; omega
  | succ cnt ih =>
      intro k0 a b j hb hj
      simp only [blockLoop]
      rcases Nat.eq_zero_or_pos b with hb0 | hbpos
      · rw [hb0]
        have e0 : k0 + 2 * m * 0 + j = k0 + j := by ring
        rw [e0]
        rw [blockLoop_frame wm m cnt (k0 + 2 * m) _ (k0 + j) (by omega)]
        rcases Nat.lt_or_ge j m with hjm | hjm
        · rw [if_pos hjm]
          have h := innerLoop_lower wm k0 m m 0 1 a j (by omega) (by omega) (by omega)
          rw [Nat.sub_zero, one_mul] at h
          exact h
        · rw [if_neg (by omega)]
          have h := innerLoop_upper wm k0 m m 0 1 a (j - m) (by omega) (by omega) (by omega)
          rw [Nat.sub_zero, one_mul] at h
          have e1 : k0 + (j - m) + m = k0 + j := by omega
          rw [e1] at h
          exact h
      · obtain ⟨b', rfl⟩ : ∃ b', b = b' + 1 := ⟨b - 1, by omega⟩
        have e1 : k0 + 2 * m * (b' + 1) + j = k0 + 2 * m + 2 * m * b' + j := by ring
        have e2 : k0 + 2 * m * (b' + 1) + (j - m) =
            k0 + 2 * m + 2 * m * b' + (j - m) := by ring
        rw [e1, e2, ih (k0 + 2 * m) _ b' j (by omega) hj]
        have f1 : innerLoop wm k0 m m 0 1 a (k0 + 2 * m + 2 * m * b' + j) =
            a (k0 + 2 * m + 2 * m * b' + j) :=
          innerLoop_frame wm k0 m m 0 1 a _ (by omega) (by omega)
        have f2 : innerLoop wm k0 m m 0 1 a (k0 + 2 * m + 2 * m * b' + j + m) =
            a (k0 + 2 * m + 2 * m * b' + j + m) :=
          innerLoop_frame wm k0 m m 0 1 a _ (by omega) (by omega)
        have f3 : innerLoop wm k0 m m 0 1 a (k0 + 2 * m + 2 * m * b' + (j - m)) =
            a (k0 + 2 * m + 2 * m * b' + (j - m)) :=
          innerLoop_frame wm k0 m m 0 1 a _ (by omega) (by omega)
        rw [f1, f2, f3]

theorem roundStep_point (n : ℕ) (ω : F) (m : ℕ) (hm : 0 < m) (hdvd : 2 * m ∣ n)
    (a : ℕ → G) (q : ℕ) (hq : q < n) :
    roundStep n ω m a q = roundPoint (pow_vartime ω [n / (2 * m)]) m a q := by
  obtain ⟨B, j, hB, hj, hq2⟩ :
      ∃ B j, B < n / (2 * m) ∧ j < 2 * m ∧ q = 2 * m * B + j := by
    refine ⟨q / (2 * m), q % (2 * m), ?_, Nat.mod_lt _ (by omega), ?_⟩
    · exact Nat.div_lt_div_of_lt_of_dvd hdvd hq
    · exact (Nat.div_add_mod q (2 * m)).symm
  subst hq2
  rw [roundStep, roundPoint]
  have hmod : (2 * m * B + j) % (2 * m) = j := by
    rw [Nat.mul_add_mod, Nat.mod_eq_of_lt hj]
  rw [hmod]
  have key := blockLoop_point (pow_vartime ω [n / (2 * m)]) m (n / (2 * m)) 0 a B j hB hj
  have e0 : 0 + 2 * m * B + j = 2 * m * B + j := by ring
  rw [e0] at key
  rcases Nat.lt_or_ge j m with hjm | hjm
  · rw [if_pos hjm] at key ⊢
    exact key
  · rw [if_neg (by omega)] at key ⊢
    have e1 : 0 + 2 * m * B + (j - m) = 2 * m * B + j - m := by omega
    rw [e1] at key
    exact key

theorem roundsLoop_succ_last (n : ℕ) (ω : F) :
    ∀ c m (a : ℕ → G),
      roundsLoop n ω (c + 1) m a =
        roundStep n ω (2 ^ c * m) (roundsLoop n ω c m a) := by
  intro c
  induction c with
  | zero =>
      intro m a
      show roundStep n ω m a = roundStep n ω (2 ^ 0 * m) a
      rw [pow_zero, one_mul]
  | succ c ih =>
      intro m a
      show roundsLoop n ω (c + 1) (2 * m) (roundStep n ω m a) =
        roundStep n ω (2 ^ (c + 1) * m) (roundsLoop n ω (c + 1) m a)
      rw [ih (2 * m) (roundStep n ω m a)]
      have e : 2 ^ c * (2 * m) = 2 ^ (c + 1) * m := by ring
      rw [e]
      rfl

theorem pow_pow_of_mul_eq (x : F) {a b c d : ℕ} (h : a * b = c * d) :
    (x ^ a) ^ b = (x ^ c) ^ d := by
  rw [← pow_mul, ← pow_mul, h]

end ButterflyLemmas

/-! ### Finite-sum bookkeeping -/

section SumLemmas

variable {M : Type*} [AddCommMonoid M]

theorem sum_range_split (f : ℕ → M) (a : ℕ) :
    ∀ b, ∑ u ∈ Finset.range (a + b), f u =
      (∑ u ∈ Finset.range a, f u) + ∑ i ∈ Finset.range b, f (a + i) := by
  intro b
  induction b with
  | zero => simp
  | succ b ih =>
      rw [show a + (b + 1) = (a + b) + 1 from rfl, Finset.sum_range_succ, ih,
        Finset.sum_range_succ, add_assoc]

theorem sum_range_two_mul (f : ℕ → M) (n : ℕ) :
    ∑ j ∈ Finset.range (2 * n), f j =
      (∑ j ∈ Finset.range n, f (2 * j)) + ∑ j ∈ Finset.range n, f (2 * j + 1) := by
  induction n with
  | zero => simp
  | succ n ih =>
      have h2 : 2 * (n + 1) = 2 * n + 1 + 1 := by ring
      rw [h2, Finset.sum_range_succ, Finset.sum_range_succ, ih,
        Finset.sum_range_succ, Finset.sum_range_succ]
      have e1 : 2 * n + 1 = 2 * n + 1 := rfl
      abel

theorem sum_range_mul_split (f : ℕ → M) (L : ℕ) :
    ∀ T, ∑ u ∈ Finset.range (T * L), f u =
      ∑ s ∈ Finset.range T, ∑ i ∈ Finset.range L, f (s * L + i) := by
  intro T
  induction T with
  | zero => simp
  | succ T ih =>
      have h : (T + 1) * L = T * L + L := by ring
      rw [h, sum_range_split, ih, Finset.sum_range_succ]

end SumLemmas

/-! ### The serial FFT computes the NTT -/

section SerialNtt

variable {F : Type*} [CommRing F] {G : Type*} [AddCommGroup G] [Module F G]

theorem roundsLoop_invariant (l : ℕ) (hl : l ≤ 31) (ω : F)
    (hω : 1 ≤ l → ω ^ 2 ^ (l - 1) = -1) (a : ℕ → G) :
    ∀ t, t ≤ l → ∀ p, p < 2 ^ l →
      roundsLoop (2 ^ l) ω t 1 (bitrevPass l (2 ^ l) a) p =
        ∑ j ∈ Finset.range (2 ^ t),
          (ω ^ 2 ^ (l - t)) ^ (p % 2 ^ t * j) •
            a (j * 2 ^ (l - t) + bitreverse (p / 2 ^ t) (l - t)) := by
  intro t
  induction t with
  | zero =>
      intro _ p hp
      show bitrevPass l (2 ^ l) a p = _
      rw [bitrevPass_eq l a p hp]
      simp
  | succ t ih =>
      intro ht p hp
      have htl : t ≤ l := by omega
      rw [roundsLoop_succ_last (2 ^ l) ω t 1 (bitrevPass l (2 ^ l) a), mul_one]
      have hdvd : 2 * 2 ^ t ∣ 2 ^ l := by
        refine ⟨2 ^ (l - (t + 1)), ?_⟩
        rw [← pow_succ', ← pow_add]
        congr 1
        omega
      rw [roundStep_point (2 ^ l) ω (2 ^ t) (Nat.two_pow_pos t) hdvd _ p hp]
      have hexp : 2 ^ l / (2 * 2 ^ t) = 2 ^ (l - (t + 1)) := by
        rw [← pow_succ', Nat.pow_div (by omega) (by norm_num)]
      have htw : pow_vartime ω [2 ^ l / (2 * 2 ^ t)] = ω ^ 2 ^ (l - (t + 1)) := by
        rw [hexp]
        exact pow_vartime_single ω _ (Nat.pow_lt_pow_right (by norm_num) (by omega))
      rw [htw, roundPoint]
      obtain ⟨b, i, hb, hi, rfl⟩ :
          ∃ b i, b < 2 ^ (l - (t + 1)) ∧ i < 2 ^ (t + 1) ∧ p = 2 ^ (t + 1) * b + i := by
        refine ⟨p / 2 ^ (t + 1), p % 2 ^ (t + 1), ?_,
          Nat.mod_lt _ (Nat.two_pow_pos _), (Nat.div_add_mod p (2 ^ (t + 1))).symm⟩
        rw [Nat.div_lt_iff_lt_mul (Nat.two_pow_pos _)]
        calc p < 2 ^ l := hp
          _ = 2 ^ (l - (t + 1)) * 2 ^ (t + 1) := by rw [← pow_add]; congr 1; omega
      have e21 : 2 * 2 ^ t = 2 ^ (t + 1) := (pow_succ' 2 t).symm
      rw [e21]
      have f1 : (2 ^ (t + 1) * b + i) % 2 ^ (t + 1) = i := by
        rw [Nat.mul_add_mod, Nat.mod_eq_of_lt hi]
      have f2 : (2 ^ (t + 1) * b + i) / 2 ^ (t + 1) = b := by
        rw [Nat.mul_add_div (Nat.two_pow_pos _), Nat.div_eq_of_lt hi, add_zero]
      rw [f1, f2]
      rcases Nat.lt_or_ge i (2 ^ t) with hit | hit
      · -- lower half of its block: a plain butterfly sum split
        rw [if_pos hit]
        have e22 : 2 ^ (t + 1) * b + i = 2 ^ t * (2 * b) + i := by
          rw [pow_succ]; ring
        have e23 : 2 ^ t * (2 * b) + i + 2 ^ t = 2 ^ t * (2 * b + 1) + i := by ring
        rw [e22, e23]
        have hA1 : 2 ^ t * (2 * b) + i < 2 ^ l := by omega
        have hfact2 : 2 ^ (t + 1) * 2 ^ (l - (t + 1)) = 2 ^ l := by
          rw [← pow_add]; congr 1; omega
        have hA2 : 2 ^ t * (2 * b + 1) + i < 2 ^ l := by
          have h1 : 2 ^ (t + 1) * (b + 1) = 2 ^ (t + 1) * b + 2 ^ (t + 1) := by ring
          have h2 : 2 ^ (t + 1) * (b + 1) ≤ 2 ^ (t + 1) * 2 ^ (l - (t + 1)) :=
            Nat.mul_le_mul_left _ hb
          omega
        rw [ih htl (2 ^ t * (2 * b) + i) hA1, ih htl (2 ^ t * (2 * b + 1) + i) hA2]
        have g1 : (2 ^ t * (2 * b) + i) % 2 ^ t = i := by
          rw [Nat.mul_add_mod, Nat.mod_eq_of_lt hit]
        have g2 : (2 ^ t * (2 * b) + i) / 2 ^ t = 2 * b := by
          rw [Nat.mul_add_div (Nat.two_pow_pos _), Nat.div_eq_of_lt hit, add_zero]
        have g3 : (2 ^ t * (2 * b + 1) + i) % 2 ^ t = i := by
          rw [Nat.mul_add_mod, Nat.mod_eq_of_lt hit]
        have g4 : (2 ^ t * (2 * b + 1) + i) / 2 ^ t = 2 * b + 1 := by
          rw [Nat.mul_add_div (Nat.two_pow_pos _), Nat.div_eq_of_lt hit, add_zero]
        rw [g1, g2, g3, g4]
        have hL1 : l - t = l - (t + 1) + 1 := by omega
        rw [hL1, bitreverse_two_mul, bitreverse_two_mul_add_one]
        rw [show (2:ℕ) ^ (t + 1) = 2 * 2 ^ t from by rw [pow_succ]; ring]
        rw [sum_range_two_mul]
        have hEv : ∑ j ∈ Finset.range (2 ^ t),
            (ω ^ 2 ^ (l - (t + 1) + 1)) ^ (i * j) •
              a (j * 2 ^ (l - (t + 1) + 1) + bitreverse b (l - (t + 1))) =
          ∑ j ∈ Finset.range (2 ^ t),
            (ω ^ 2 ^ (l - (t + 1))) ^ (i * (2 * j)) •
              a (2 * j * 2 ^ (l - (t + 1)) + bitreverse b (l - (t + 1))) := by
          refine Finset.sum_congr rfl fun j _ => ?_
          congr 1
          · exact pow_pow_of_mul_eq ω (by rw [pow_succ]; ring)
          · congr 1
            rw [pow_succ]; ring
        have hOd : (ω ^ 2 ^ (l - (t + 1))) ^ i • ∑ j ∈ Finset.range (2 ^ t),
            (ω ^ 2 ^ (l - (t + 1) + 1)) ^ (i * j) •
              a (j * 2 ^ (l - (t + 1) + 1) +
                (2 ^ (l - (t + 1)) + bitreverse b (l - (t + 1)))) =
          ∑ j ∈ Finset.range (2 ^ t),
            (ω ^ 2 ^ (l - (t + 1))) ^ (i * (2 * j + 1)) •
              a ((2 * j + 1) * 2 ^ (l - (t + 1)) + bitreverse b (l - (t + 1))) := by
          rw [Finset.smul_sum]
          refine Finset.sum_congr rfl fun j _ => ?_
          rw [smul_smul]
          congr 1
          · rw [← pow_mul, ← pow_mul, ← pow_add, ← pow_mul]
            congr 1
            rw [pow_succ]; ring
          · congr 1
            rw [pow_succ]; ring
        rw [hEv, hOd]
      · -- upper half of its block: uses ω ^ 2 ^ (l - 1) = -1
        rw [if_neg (by omega)]
        obtain ⟨i2, rfl⟩ : ∃ i2, i = i2 + 2 ^ t := ⟨i - 2 ^ t, by omega⟩
        have hi2 : i2 < 2 ^ t := by omega
        simp only [Nat.add_sub_cancel]
        have e24 : 2 ^ (t + 1) * b + (i2 + 2 ^ t) - 2 ^ t = 2 ^ t * (2 * b) + i2 := by
          have e : 2 ^ (t + 1) * b = 2 ^ t * (2 * b) := by rw [pow_succ]; ring
          omega
        have e25 : 2 ^ (t + 1) * b + (i2 + 2 ^ t) = 2 ^ t * (2 * b + 1) + i2 := by
          have e : 2 ^ (t + 1) * b = 2 ^ t * (2 * b) := by rw [pow_succ]; ring
          have e' : 2 ^ t * (2 * b + 1) = 2 ^ t * (2 * b) + 2 ^ t := by ring
          omega
        rw [e24, e25]
        have hA1 : 2 ^ t * (2 * b) + i2 < 2 ^ l := by omega
        have hA2 : 2 ^ t * (2 * b + 1) + i2 < 2 ^ l := by omega
        rw [ih htl (2 ^ t * (2 * b) + i2) hA1, ih htl (2 ^ t * (2 * b + 1) + i2) hA2]
        have g1 : (2 ^ t * (2 * b) + i2) % 2 ^ t = i2 := by
          rw [Nat.mul_add_mod, Nat.mod_eq_of_lt hi2]
        have g2 : (2 ^ t * (2 * b) + i2) / 2 ^ t = 2 * b := by
          rw [Nat.mul_add_div (Nat.two_pow_pos _), Nat.div_eq_of_lt hi2, add_zero]
        have g3 : (2 ^ t * (2 * b + 1) + i2) % 2 ^ t = i2 := by
          rw [Nat.mul_add_mod, Nat.mod_eq_of_lt hi2]
        have g4 : (2 ^ t * (2 * b + 1) + i2) / 2 ^ t = 2 * b + 1 := by
          rw [Nat.mul_add_div (Nat.two_pow_pos _), Nat.div_eq_of_lt hi2, add_zero]
        rw [g1, g2, g3, g4]
        have hL1 : l - t = l - (t + 1) + 1 := by omega
        rw [hL1, bitreverse_two_mul, bitreverse_two_mul_add_one]
        rw [show (2:ℕ) ^ (t + 1) = 2 * 2 ^ t from by rw [pow_succ]; ring]
        rw [sum_range_two_mul]
        have hm1 : ω ^ 2 ^ (l - 1) = -1 := hω (by omega)
        have hone : ω ^ 2 ^ l = 1 := by
          have e : (2:ℕ) ^ l = 2 ^ (l - 1) * 2 := by
            rw [← pow_succ]; congr 1; omega
          rw [e, pow_mul, hm1]
          exact neg_one_sq
        have hEv : ∑ j ∈ Finset.range (2 ^ t),
            (ω ^ 2 ^ (l - (t + 1) + 1)) ^ (i2 * j) •
              a (j * 2 ^ (l - (t + 1) + 1) + bitreverse b (l - (t + 1))) =
          ∑ j ∈ Finset.range (2 ^ t),
            (ω ^ 2 ^ (l - (t + 1))) ^ ((i2 + 2 ^ t) * (2 * j)) •
              a (2 * j * 2 ^ (l - (t + 1)) + bitreverse b (l - (t + 1))) := by
          refine Finset.sum_congr rfl fun j _ => ?_
          congr 1
          · rw [← pow_mul, ← pow_mul]
            have hsplit : 2 ^ (l - (t + 1)) * ((i2 + 2 ^ t) * (2 * j)) =
                2 ^ (l - (t + 1) + 1) * (i2 * j) + 2 ^ l * j := by
              have e1 : (2:ℕ) ^ (l - (t + 1) + 1) = 2 ^ (l - (t + 1)) * 2 :=
                pow_succ 2 _
              have e2 : (2:ℕ) ^ l = 2 ^ (l - (t + 1)) * 2 * 2 ^ t := by
                rw [← pow_succ, ← pow_add]; congr 1; omega
              rw [e1, e2]; ring
            rw [hsplit, pow_add ω (2 ^ (l - (t + 1) + 1) * (i2 * j)) (2 ^ l * j),
              pow_mul ω (2 ^ l), hone, one_pow, mul_one]
          · congr 1
            rw [pow_succ]; ring
        have hOd : ∑ j ∈ Finset.range (2 ^ t),
            (ω ^ 2 ^ (l - (t + 1))) ^ ((i2 + 2 ^ t) * (2 * j + 1)) •
              a ((2 * j + 1) * 2 ^ (l - (t + 1)) + bitreverse b (l - (t + 1))) =
          -((ω ^ 2 ^ (l - (t + 1))) ^ i2 • ∑ j ∈ Finset.range (2 ^ t),
            (ω ^ 2 ^ (l - (t + 1) + 1)) ^ (i2 * j) •
              a (j * 2 ^ (l - (t + 1) + 1) +
                (2 ^ (l - (t + 1)) + bitreverse b (l - (t + 1))))) := by
          rw [Finset.smul_sum, ← Finset.sum_neg_distrib]
          refine Finset.sum_congr rfl fun j _ => ?_
          rw [smul_smul, ← neg_smul]
          congr 1
          · rw [← pow_mul, ← pow_mul, ← pow_mul]
            have hsplit : 2 ^ (l - (t + 1)) * ((i2 + 2 ^ t) * (2 * j + 1)) =
                2 ^ (l - (t + 1)) * i2 + 2 ^ (l - (t + 1) + 1) * (i2 * j) +
                  (2 ^ (l - 1) + 2 ^ l * j) := by
              have e1 : (2:ℕ) ^ (l - (t + 1) + 1) = 2 ^ (l - (t + 1)) * 2 :=
                pow_succ 2 _
              have e2 : (2:ℕ) ^ l = 2 ^ (l - (t + 1)) * 2 * 2 ^ t := by
                rw [← pow_succ, ← pow_add]; congr 1; omega
              have e3 : (2:ℕ) ^ (l - 1) = 2 ^ (l - (t + 1)) * 2 ^ t := by
                rw [← pow_add]; congr 1; omega
              rw [e1, e2, e3]; ring
            rw [hsplit,
              pow_add ω (2 ^ (l - (t + 1)) * i2 + 2 ^ (l - (t + 1) + 1) * (i2 * j))
                (2 ^ (l - 1) + 2 ^ l * j),
              pow_add ω (2 ^ (l - (t + 1)) * i2) (2 ^ (l - (t + 1) + 1) * (i2 * j)),
              pow_add ω (2 ^ (l - 1)) (2 ^ l * j),
              pow_mul ω (2 ^ l), hone, one_pow, mul_one, hm1]
            ring
          · congr 1
            rw [pow_succ]; ring
        rw [hEv, hOd, sub_eq_add_neg]

theorem serial_ec_fft_ntt_core (l : ℕ) (hl : l ≤ 31) (ω : F)
    (hω : 1 ≤ l → ω ^ 2 ^ (l - 1) = -1) (a : ℕ → G) (p : ℕ) (hp : p < 2 ^ l) :
    serial_ec_fft a ω l p = ntt (2 ^ l) ω a p := by
  rw [serial_ec_fft, ntt, roundsLoop_invariant l hl ω hω a l le_rfl p hp]
  refine Finset.sum_congr rfl fun j hj => ?_
  have e1 : l - l = 0 := by omega
  rw [e1, bitreverse_zero, Nat.mod_eq_of_lt hp]
  simp

end SerialNtt

/-! ### Roots of unity in a field -/

section FieldRoot

variable {K : Type*} [Field K]

theorem orderOf_two_pow_neg_one (ω : K) (l : ℕ)
    (hω : orderOf ω = 2 ^ l) (hl : 1 ≤ l) : ω ^ 2 ^ (l - 1) = -1 := by
  have hone : ω ^ 2 ^ l = 1 := by
    rw [← hω]; exact pow_orderOf_eq_one ω
  have hsq : ω ^ 2 ^ (l - 1) * ω ^ 2 ^ (l - 1) = 1 := by
    rw [← pow_add]
    have e : 2 ^ (l - 1) + 2 ^ (l - 1) = 2 ^ l := by
      have e2 : (2:ℕ) ^ l = 2 ^ (l - 1) * 2 := by
        rw [← pow_succ, Nat.sub_add_cancel hl]
      omega
    rw [e, hone]
  rcases mul_self_eq_one_iff.mp hsq with h | h
  · exfalso
    have hdvd : orderOf ω ∣ 2 ^ (l - 1) := orderOf_dvd_of_pow_eq_one h
    rw [hω] at hdvd
    have hle : 2 ^ l ≤ 2 ^ (l - 1) := Nat.le_of_dvd (Nat.two_pow_pos _) hdvd
    have hlt : 2 ^ (l - 1) < 2 ^ l := Nat.pow_lt_pow_right (by norm_num) (by omega)
    omega
  · exact h

theorem orderOf_pow_eq_one (ω : K) (l : ℕ) (hω : orderOf ω = 2 ^ l) :
    ω ^ 2 ^ l = 1 := by
  rw [← hω]; exact pow_orderOf_eq_one ω

end FieldRoot

theorem orderOf_two_zmod5 : orderOf (2 : ZMod 5) = 4 := by
  rw [orderOf_eq_iff (by norm_num)]
  constructor
  · decide
  · decide

/-! ### Claim C1: the serial FFT computes the NTT -/

/-- C1.  For every buffer `a` of length `N = 2 ^ log_n` (indices below `N`)
and every root `ω` of order `N`, `serial_ec_fft` — the bit-reverse
permutation followed by `log_n` butterfly rounds with
`w_m = ω ^ (N / (2m))` and the in-place updates `t = w • a[k+j+m]`,
`a[k+j+m] = a[k+j] - t`, `a[k+j] = a[k+j] + t` — leaves at every index `i`
the NTT value `out[i] = ∑ j, ω ^ (i*j) • a[j]`, in natural order.
(`log_n ≤ 31` reflects the `u32` size arithmetic of the source.) -/
theorem serial_ec_fft_eq_ntt {K : Type*} [Field K] {G : Type*} [AddCommGroup G]
    [Module K G] (a : ℕ → G) (ω : K) (log_n : ℕ) (hl : log_n ≤ 31)
    (hω : orderOf ω = 2 ^ log_n) (i : ℕ) (hi : i < 2 ^ log_n) :
    serial_ec_fft a ω log_n i = ntt (2 ^ log_n) ω a i :=
  serial_ec_fft_ntt_core log_n hl ω
    (fun h1 => orderOf_two_pow_neg_one ω log_n hω h1) a i hi

theorem serial_ec_fft_eq_ntt_witness :
    ((2:ℕ) ≤ 31 ∧ orderOf (2 : ZMod 5) = 2 ^ 2 ∧ (1:ℕ) < 2 ^ 2) ∧
      serial_ec_fft (fun q => (q : ZMod 5)) (2 : ZMod 5) 2 1 =
        ntt (2 ^ 2) (2 : ZMod 5) (fun q => (q : ZMod 5)) 1 :=
  ⟨⟨by norm_num, by rw [orderOf_two_zmod5]; norm_num, by norm_num⟩,
    serial_ec_fft_eq_ntt (fun q => (q : ZMod 5)) (2 : ZMod 5) 2 (by norm_num)
      (by rw [orderOf_two_zmod5]; norm_num) 1 (by norm_num)⟩

/-! ### Claim C5: the conditional-swap loop is the bit-reverse permutation -/

/-- C5.  After the bit-reverse phase of `serial_ec_fft` (swapping `k` with
`bitreverse k log_n` exactly when `k < bitreverse k`), index `k` holds the
original element at index `bitreverse k log_n`, for every `k < 2 ^ log_n`. -/
theorem bitrevPass_is_bit_reverse_permutation {G : Type*} (a : ℕ → G)
    (log_n k : ℕ) (hk : k < 2 ^ log_n) :
    bitrevPass log_n (2 ^ log_n) a k = a (bitreverse k log_n) :=
  bitrevPass_eq log_n a k hk

theorem bitrevPass_is_bit_reverse_permutation_witness :
    (3:ℕ) < 2 ^ 3 ∧
      bitrevPass 3 (2 ^ 3) (fun q => (q : ℤ)) 3 = ((fun q => (q : ℤ)) (bitreverse 3 3)) :=
  ⟨by norm_num,
    bitrevPass_is_bit_reverse_permutation (fun q => (q : ℤ)) 3 3 (by norm_num)⟩

/-! ### Claim C6: bit reversal is an involution -/

/-- C6.  For every `k < 2 ^ l`, `bitreverse (bitreverse k l) l = k`. -/
theorem bitreverse_involution (k l : ℕ) (hk : k < 2 ^ l) :
    bitreverse (bitreverse k l) l = k :=
  bitreverse_bitreverse l k hk

theorem bitreverse_involution_witness :
    (5:ℕ) < 2 ^ 3 ∧ bitreverse (bitreverse 5 3) 3 = 5 :=
  ⟨by norm_num, bitreverse_involution 5 3 (by norm_num)⟩

/-! ### Claim C9: pow_vartime raises to the little-endian limb value -/

theorem limbsVal_eq_limbsSum (exp : List ℕ) (hexp : ∀ e ∈ exp, e < 2 ^ 64) :
    limbsVal exp = limbsSum exp := by
  induction exp with
  | nil => simp [limbsVal, limbsSum]
  | cons e rest ih =>
      have he : e < 2 ^ 64 := hexp e (by simp)
      rw [limbsVal, Nat.mod_eq_of_lt he, ih (fun x hx => hexp x (by simp [hx]))]
      rw [limbsSum, limbsSum, List.length_cons, Finset.sum_range_succ']
      have hterm : ∀ x ∈ Finset.range rest.length,
          (e :: rest).getD (x + 1) 0 * 2 ^ (64 * (x + 1)) =
            2 ^ 64 * (rest.getD x 0 * 2 ^ (64 * x)) := by
        intro x _
        rw [List.getD_cons_succ]
        have e64 : 64 * (x + 1) = 64 * x + 64 := by ring
        rw [e64, pow_add]
        ring
      rw [Finset.sum_congr rfl hterm, List.getD_cons_zero, Nat.mul_zero, pow_zero,
        mul_one, ← Finset.mul_sum]
      omega

/-- C9.  For every base and every list of 64-bit limbs, `pow_vartime`
computes `base ^ e` where `e = ∑ exp[i] * 2 ^ (64*i)` is the non-negative
integer the limbs encode in little-endian order. -/
theorem pow_vartime_computes_power {K : Type*} [CommRing K] (base : K)
    (exp : List ℕ) (hexp : ∀ e ∈ exp, e < 2 ^ 64) :
    pow_vartime base exp = base ^ limbsSum exp := by
  rw [pow_vartime_eq_limbsVal, limbsVal_eq_limbsSum exp hexp]

section ShuffleLemmas

variable {F : Type*} [CommRing F] {G : Type*} [AddCommGroup G] [Module F G]

theorem shuffleS_fst (a : ℕ → G) (ωstep : F) (N L i : ℕ) :
    ∀ fuel s elt acc,
      (shuffleS a ωstep N L i fuel s elt acc).1 = elt * ωstep ^ fuel := by
  intro fuel
  induction fuel with
  | zero => intro s elt acc; simp [shuffleS]
  | succ fuel ih =>
      intro s elt acc
      rw [shuffleS, ih, pow_succ']
      ring

theorem shuffleS_snd (a : ℕ → G) (ωstep : F) (N L i : ℕ) :
    ∀ fuel s elt acc,
      (shuffleS a ωstep N L i fuel s elt acc).2 =
        acc + ∑ u ∈ Finset.range fuel,
          (elt * ωstep ^ u) • a ((i + ((s + u) <<< L)) % 2 ^ N) := by
  intro fuel
  induction fuel with
  | zero => intro s elt acc; simp [shuffleS]
  | succ fuel ih =>
      intro s elt acc
      rw [shuffleS, ih, Finset.sum_range_succ']
      have hsum : ∀ u ∈ Finset.range fuel,
          (elt * ωstep * ωstep ^ u) • a ((i + ((s + 1 + u) <<< L)) % 2 ^ N) =
            (elt * ωstep ^ (u + 1)) • a ((i + ((s + (u + 1)) <<< L)) % 2 ^ N) := by
        intro u _
        rw [show s + 1 + u = s + (u + 1) from by omega]
        congr 1
        rw [pow_succ']
        ring
      rw [Finset.sum_congr rfl hsum]
      simp only [pow_zero, mul_one, Nat.add_zero]
      abel

theorem shuffleI_spec (a : ℕ → G) (ωstep ωj : F) (N L T : ℕ) :
    ∀ fuel i0 elt (tmp : ℕ → G) q,
      shuffleI a ωstep ωj N L T fuel i0 elt tmp q =
        if i0 ≤ q ∧ q < i0 + fuel then
          tmp q + ∑ s ∈ Finset.range T,
            (elt * (ωstep ^ T * ωj) ^ (q - i0) * ωstep ^ s) •
              a ((q + ((0 + s) <<< L)) % 2 ^ N)
        else tmp q := by
  intro fuel
  induction fuel with
  | zero =>
      intro i0 elt tmp q
      rw [shuffleI, if_neg (by omega)]
  | succ fuel ih =>
      intro i0 elt tmp q
      rw [shuffleI, ih, shuffleS_fst, shuffleS_snd]
      rcases eq_or_ne q i0 with he | hne
      · rw [if_neg (by omega), writeAt_eq tmp i0 q _ he, if_pos (by omega), he,
          Nat.sub_self]
        congr 1
        refine Finset.sum_congr rfl fun s _ => ?_
        rw [pow_zero, mul_one]
      · rcases Nat.lt_or_ge q (i0 + 1) with hq1 | hq1
        · rw [if_neg (by omega), writeAt_ne tmp i0 q _ hne, if_neg (by omega)]
        · rcases Nat.lt_or_ge q (i0 + 1 + fuel) with hq2 | hq2
          · rw [if_pos (by omega), writeAt_ne tmp i0 q _ hne, if_pos (by omega)]
            congr 1
            refine Finset.sum_congr rfl fun s _ => ?_
            congr 1
            rw [show q - i0 = q - (i0 + 1) + 1 from by omega, pow_succ']
            ring
          · rw [if_neg (by omega), writeAt_ne tmp i0 q _ hne, if_neg (by omega)]

theorem fillBuffer_spec (a : ℕ → G) (ω : F) (l lt : ℕ) (hl : l ≤ 31)
    (hlt : lt ≤ l) (hω : ω ^ 2 ^ l = 1) (j : ℕ) (hj : j < 2 ^ lt)
    (i : ℕ) (hi : i < 2 ^ (l - lt)) :
    fillBuffer a ω l lt j i =
      ∑ s ∈ Finset.range (2 ^ lt),
        ω ^ (j * (i + s * 2 ^ (l - lt))) • a ((i + s * 2 ^ (l - lt)) % 2 ^ l) := by
  have hfact : 2 ^ lt * 2 ^ (l - lt) = 2 ^ l := by
    rw [← pow_add]; congr 1; omega
  have hstep : pow_vartime ω [j <<< (l - lt)] = ω ^ (j * 2 ^ (l - lt)) := by
    rw [Nat.shiftLeft_eq]
    refine pow_vartime_single ω _ ?_
    have h1 : j * 2 ^ (l - lt) < 2 ^ lt * 2 ^ (l - lt) :=
      (Nat.mul_lt_mul_right (Nat.two_pow_pos _)).mpr hj
    have h2 : (2:ℕ) ^ l ≤ 2 ^ 64 := Nat.pow_le_pow_right (by norm_num) (by omega)
    omega
  have hjv : pow_vartime ω [j] = ω ^ j := by
    refine pow_vartime_single ω _ ?_
    have h2 : (2:ℕ) ^ lt ≤ 2 ^ 64 := Nat.pow_le_pow_right (by norm_num) (by omega)
    omega
  rw [fillBuffer, hstep, hjv, shuffleI_spec, if_pos (by omega)]
  rw [zero_add]
  refine Finset.sum_congr rfl fun s hs => ?_
  have hs' : s < 2 ^ lt := Finset.mem_range.mp hs
  have hidx : (i + ((0 + s) <<< (l - lt))) % 2 ^ l = (i + s * 2 ^ (l - lt)) % 2 ^ l := by
    rw [Nat.zero_add, Nat.shiftLeft_eq]
  rw [hidx]
  congr 1
  rw [Nat.sub_zero, one_mul]
  rw [← pow_mul ω (j * 2 ^ (l - lt)) (2 ^ lt), ← pow_add, ← pow_mul, ← pow_mul,
    ← pow_add]
  have hsplit : j * (i + s * 2 ^ (l - lt)) + 2 ^ l * (j * i) =
      (j * 2 ^ (l - lt) * 2 ^ lt + j) * i + j * 2 ^ (l - lt) * s := by
    rw [← hfact]; ring
  rw [show (j * 2 ^ (l - lt) * 2 ^ lt + j) * i + j * 2 ^ (l - lt) * s =
        j * (i + s * 2 ^ (l - lt)) + 2 ^ l * (j * i) from hsplit.symm]
  rw [pow_add ω (j * (i + s * 2 ^ (l - lt))) (2 ^ l * (j * i)),
    pow_mul ω (2 ^ l), hω, one_pow, mul_one]

end ShuffleLemmas

theorem pow_vartime_computes_power_witness :
    (∀ e ∈ [(0:ℕ)], e < 2 ^ 64) ∧
      pow_vartime (3 : ZMod 7) [0] = (3 : ZMod 7) ^ limbsSum [0] :=
  ⟨by intro e he; simp at he; omega,
    pow_vartime_computes_power (3 : ZMod 7) [0] (by intro e he; simp at he; omega)⟩

/-! ### Claim C4: the three phases of the parallel FFT -/

/-- C4.  In `parallel_ec_fft` with `T = 2 ^ log_threads` workers and
`log_new_n = log_n - log_threads`, and `ω` of order dividing
`N = 2 ^ log_n`: worker `j` first fills its sub-buffer with
`sub_j[i] = ∑ s < T, ω ^ (j*(i + s*2^log_new_n)) • a[(i + s*2^log_new_n) mod N]`,
then runs the serial FFT on it with root `ω ^ T`, and the results are
scattered back as `a[idx] = sub[idx &&& (T-1)][idx >>> log_threads]`. -/
theorem parallel_ec_fft_phases {K : Type*} [CommRing K] {G : Type*}
    [AddCommGroup G] [Module K G] (a : ℕ → G) (ω : K) (log_n log_threads : ℕ)
    (hl : log_n ≤ 31) (hlt : log_threads ≤ log_n) (hω : ω ^ 2 ^ log_n = 1) :
    (∀ j, j < 2 ^ log_threads → ∀ i, i < 2 ^ (log_n - log_threads) →
        fillBuffer a ω log_n log_threads j i =
          ∑ s ∈ Finset.range (2 ^ log_threads),
            ω ^ (j * (i + s * 2 ^ (log_n - log_threads))) •
              a ((i + s * 2 ^ (log_n - log_threads)) % 2 ^ log_n))
    ∧ (∀ j, subBuffer a ω log_n log_threads j =
        serial_ec_fft (fillBuffer a ω log_n log_threads j)
          (ω ^ 2 ^ log_threads) (log_n - log_threads))
    ∧ (∀ idx, idx < 2 ^ log_n →
        parallel_ec_fft a ω log_n log_threads idx =
          subBuffer a ω log_n log_threads (idx &&& (2 ^ log_threads - 1))
            (idx >>> log_threads)) := by
  refine ⟨?_, ?_, ?_⟩
  · intro j hj i hi
    exact fillBuffer_spec a ω log_n log_threads hl hlt hω j hj i hi
  · intro j
    rw [subBuffer, pow_vartime_single ω (2 ^ log_threads)
      (Nat.pow_lt_pow_right (by norm_num) (by omega))]
  · intro idx _
    rfl

theorem parallel_ec_fft_phases_witness :
    ((2:ℕ) ≤ 31 ∧ (1:ℕ) ≤ 2 ∧ (2 : ZMod 5) ^ 2 ^ 2 = 1) ∧
      ((∀ j, j < 2 ^ 1 → ∀ i, i < 2 ^ (2 - 1) →
          fillBuffer (fun q : ℕ => (q : ZMod 5)) (2 : ZMod 5) 2 1 j i =
            ∑ s ∈ Finset.range (2 ^ 1),
              (2 : ZMod 5) ^ (j * (i + s * 2 ^ (2 - 1))) •
                (fun q : ℕ => (q : ZMod 5)) ((i + s * 2 ^ (2 - 1)) % 2 ^ 2))
      ∧ (∀ j, subBuffer (fun q : ℕ => (q : ZMod 5)) (2 : ZMod 5) 2 1 j =
          serial_ec_fft (fillBuffer (fun q : ℕ => (q : ZMod 5)) (2 : ZMod 5) 2 1 j)
            ((2 : ZMod 5) ^ 2 ^ 1) (2 - 1))
      ∧ (∀ idx, idx < 2 ^ 2 →
          parallel_ec_fft (fun q : ℕ => (q : ZMod 5)) (2 : ZMod 5) 2 1 idx =
            subBuffer (fun q : ℕ => (q : ZMod 5)) (2 : ZMod 5) 2 1
              (idx &&& (2 ^ 1 - 1)) (idx >>> 1))) :=
  ⟨⟨by norm_num, by norm_num, by decide⟩,
    parallel_ec_fft_phases (fun q : ℕ => (q : ZMod 5)) (2 : ZMod 5) 2 1 (by norm_num)
      (by norm_num) (by decide)⟩

/-! ### Claim C2: the parallel FFT agrees with the serial FFT -/

/-- C2.  For every buffer of length `2 ^ log_n`, every
`log_threads ≤ log_n` and every `ω` of order `2 ^ log_n`,
`parallel_ec_fft` leaves the buffer elementwise equal to what
`serial_ec_fft` produces on the same input. -/
theorem parallel_ec_fft_eq_serial {K : Type*} [Field K] {G : Type*}
    [AddCommGroup G] [Module K G] (a : ℕ → G) (ω : K) (log_n log_threads : ℕ)
    (hl : log_n ≤ 31) (hlt : log_threads ≤ log_n)
    (hω : orderOf ω = 2 ^ log_n) (idx : ℕ) (hidx : idx < 2 ^ log_n) :
    parallel_ec_fft a ω log_n log_threads idx = serial_ec_fft a ω log_n idx := by
  have hω1 : ω ^ 2 ^ log_n = 1 := orderOf_pow_eq_one ω log_n hω
  have hpair : 1 ≤ log_n → ω ^ 2 ^ (log_n - 1) = -1 :=
    fun h => orderOf_two_pow_neg_one ω log_n hω h
  have hfact : 2 ^ log_threads * 2 ^ (log_n - log_threads) = 2 ^ log_n := by
    rw [← pow_add]; congr 1; omega
  obtain ⟨D, J, hD, hJ, rfl⟩ :
      ∃ D J, D < 2 ^ (log_n - log_threads) ∧ J < 2 ^ log_threads ∧
        idx = 2 ^ log_threads * D + J := by
    refine ⟨idx / 2 ^ log_threads, idx % 2 ^ log_threads, ?_,
      Nat.mod_lt _ (Nat.two_pow_pos _), (Nat.div_add_mod idx (2 ^ log_threads)).symm⟩
    rw [Nat.div_lt_iff_lt_mul (Nat.two_pow_pos _)]
    calc idx < 2 ^ log_n := hidx
      _ = 2 ^ (log_n - log_threads) * 2 ^ log_threads := by
          rw [← pow_add]; congr 1; omega
  rw [parallel_ec_fft]
  have hand : (2 ^ log_threads * D + J) &&& (2 ^ log_threads - 1) = J := by
    rw [Nat.and_pow_two_sub_one_eq_mod, Nat.mul_add_mod, Nat.mod_eq_of_lt hJ]
  have hshift : (2 ^ log_threads * D + J) >>> log_threads = D := by
    rw [Nat.shiftRight_eq_div_pow, Nat.mul_add_div (Nat.two_pow_pos _),
      Nat.div_eq_of_lt hJ, add_zero]
  rw [hand, hshift, subBuffer]
  rw [pow_vartime_single ω (2 ^ log_threads)
    (Nat.pow_lt_pow_right (by norm_num) (by omega))]
  have hsubpair : 1 ≤ log_n - log_threads →
      (ω ^ 2 ^ log_threads) ^ 2 ^ (log_n - log_threads - 1) = -1 := by
    intro h
    rw [← pow_mul]
    have e : 2 ^ log_threads * 2 ^ (log_n - log_threads - 1) = 2 ^ (log_n - 1) := by
      rw [← pow_add]; congr 1; omega
    rw [e]
    exact hpair (by omega)
  rw [serial_ec_fft_ntt_core (log_n - log_threads) (by omega) (ω ^ 2 ^ log_threads)
    hsubpair (fillBuffer a ω log_n log_threads J) D hD, ntt]
  rw [serial_ec_fft_ntt_core log_n hl ω hpair a (2 ^ log_threads * D + J) hidx, ntt]
  have hfill : ∀ i ∈ Finset.range (2 ^ (log_n - log_threads)),
      (ω ^ 2 ^ log_threads) ^ (D * i) • fillBuffer a ω log_n log_threads J i =
        ∑ s ∈ Finset.range (2 ^ log_threads),
          ω ^ ((2 ^ log_threads * D + J) * (s * 2 ^ (log_n - log_threads) + i)) •
            a (s * 2 ^ (log_n - log_threads) + i) := by
    intro i hi
    have hi' : i < 2 ^ (log_n - log_threads) := Finset.mem_range.mp hi
    rw [fillBuffer_spec a ω log_n log_threads hl hlt hω1 J hJ i hi', Finset.smul_sum]
    refine Finset.sum_congr rfl fun s hs => ?_
    have hs' : s < 2 ^ log_threads := Finset.mem_range.mp hs
    have hlt2 : i + s * 2 ^ (log_n - log_threads) < 2 ^ log_n := by
      have h3 : (s + 1) * 2 ^ (log_n - log_threads) ≤
          2 ^ log_threads * 2 ^ (log_n - log_threads) :=
        Nat.mul_le_mul_right _ hs'
      have h4 : (s + 1) * 2 ^ (log_n - log_threads) =
          s * 2 ^ (log_n - log_threads) + 2 ^ (log_n - log_threads) := by ring
      omega
    rw [smul_smul, Nat.mod_eq_of_lt hlt2,
      show i + s * 2 ^ (log_n - log_threads) = s * 2 ^ (log_n - log_threads) + i
        from by ring]
    congr 1
    rw [← pow_mul ω (2 ^ log_threads) (D * i), ← pow_add]
    have hsplit : (2 ^ log_threads * D + J) *
        (s * 2 ^ (log_n - log_threads) + i) =
        (2 ^ log_threads * (D * i) +
          J * (s * 2 ^ (log_n - log_threads) + i)) + 2 ^ log_n * (D * s) := by
      rw [← hfact]; ring
    rw [hsplit,
      pow_add ω (2 ^ log_threads * (D * i) +
        J * (s * 2 ^ (log_n - log_threads) + i)) (2 ^ log_n * (D * s)),
      pow_mul ω (2 ^ log_n), hω1, one_pow, mul_one]
  rw [Finset.sum_congr rfl hfill, Finset.sum_comm]
  rw [show (2:ℕ) ^ log_n = 2 ^ log_threads * 2 ^ (log_n - log_threads)
    from hfact.symm]
  rw [sum_range_mul_split]

theorem parallel_ec_fft_eq_serial_witness :
    ((2:ℕ) ≤ 31 ∧ (1:ℕ) ≤ 2 ∧ orderOf (2 : ZMod 5) = 2 ^ 2 ∧ (3:ℕ) < 2 ^ 2) ∧
      parallel_ec_fft (fun q => (q : ZMod 5)) (2 : ZMod 5) 2 1 3 =
        serial_ec_fft (fun q => (q : ZMod 5)) (2 : ZMod 5) 2 3 :=
  ⟨⟨by norm_num, by norm_num, by rw [orderOf_two_zmod5]; norm_num, by norm_num⟩,
    parallel_ec_fft_eq_serial (fun q => (q : ZMod 5)) (2 : ZMod 5) 2 1
      (by norm_num) (by norm_num) (by rw [orderOf_two_zmod5]; norm_num) 3
      (by norm_num)⟩

/-! ### Claim C3: forward then inverse transform scales by N -/

/-- C3.  For a buffer of length `N = 2 ^ log_n` and `ω` of order `N`,
running `serial_ec_fft` with root `ω` and then with root `ω⁻¹` yields
`N • buf`: every element of the original buffer scaled, as a group
element, by `N`. -/
theorem serial_ec_fft_inverse_round_trip {K : Type*} [Field K] {G : Type*}
    [AddCommGroup G] [Module K G] (a : ℕ → G) (ω : K) (log_n : ℕ)
    (hl : log_n ≤ 31) (hω : orderOf ω = 2 ^ log_n) (i : ℕ)
    (hi : i < 2 ^ log_n) :
    serial_ec_fft (serial_ec_fft a ω log_n) ω⁻¹ log_n i = (2 ^ log_n) • a i := by
  have hω1 : ω ^ 2 ^ log_n = 1 := orderOf_pow_eq_one ω log_n hω
  have hω0 : ω ≠ 0 := by
    intro h
    rw [h, zero_pow (by positivity)] at hω1
    exact zero_ne_one hω1
  have hpair : 1 ≤ log_n → ω ^ 2 ^ (log_n - 1) = -1 :=
    fun h => orderOf_two_pow_neg_one ω log_n hω h
  have hinvpair : 1 ≤ log_n → (ω⁻¹) ^ 2 ^ (log_n - 1) = -1 := by
    intro h
    rw [inv_pow, hpair h]
    norm_num
  have hcancel : ∀ u v : ℕ, u < v → v < 2 ^ log_n → ω ^ u = ω ^ v → False := by
    intro u v huv hv he
    have h0 : ω ^ u ≠ 0 := pow_ne_zero u hω0
    have he2 : ω ^ u * ω ^ (v - u) = ω ^ u * 1 := by
      rw [mul_one, ← pow_add, show u + (v - u) = v from by omega, ← he]
    have he3 : ω ^ (v - u) = 1 := mul_left_cancel₀ h0 he2
    have hdvd : orderOf ω ∣ v - u := orderOf_dvd_of_pow_eq_one he3
    rw [hω] at hdvd
    have := Nat.le_of_dvd (by omega) hdvd
    omega
  rw [serial_ec_fft_ntt_core log_n hl ω⁻¹ hinvpair (serial_ec_fft a ω log_n) i hi,
    ntt]
  have hinner : ∀ k ∈ Finset.range (2 ^ log_n),
      (ω⁻¹) ^ (i * k) • serial_ec_fft a ω log_n k =
        ∑ j ∈ Finset.range (2 ^ log_n),
          ((ω⁻¹) ^ (i * k) * ω ^ (k * j)) • a j := by
    intro k hk
    rw [serial_ec_fft_ntt_core log_n hl ω hpair a k (Finset.mem_range.mp hk), ntt,
      Finset.smul_sum]
    refine Finset.sum_congr rfl fun j _ => ?_
    rw [smul_smul]
  rw [Finset.sum_congr rfl hinner, Finset.sum_comm]
  have hcoeff : ∀ j ∈ Finset.range (2 ^ log_n),
      ∑ k ∈ Finset.range (2 ^ log_n), ((ω⁻¹) ^ (i * k) * ω ^ (k * j)) • a j =
        (if j = i then ((2 ^ log_n : ℕ) : K) else 0) • a j := by
    intro j hj
    have hj' : j < 2 ^ log_n := Finset.mem_range.mp hj
    rw [← Finset.sum_smul]
    congr 1
    have hz : ∀ k, (ω⁻¹) ^ (i * k) * ω ^ (k * j) = ((ω⁻¹) ^ i * ω ^ j) ^ k := by
      intro k
      rw [mul_pow, ← pow_mul, ← pow_mul, mul_comm k j]
    rw [Finset.sum_congr rfl fun k _ => hz k]
    rcases eq_or_ne j i with hji | hne
    · rw [hji, if_pos rfl]
      have hz1 : (ω⁻¹) ^ i * ω ^ i = 1 := by
        rw [inv_pow]
        exact inv_mul_cancel₀ (pow_ne_zero i hω0)
      rw [hz1]
      simp
    · rw [if_neg hne]
      have hzN : ((ω⁻¹) ^ i * ω ^ j) ^ 2 ^ log_n = 1 := by
        rw [mul_pow, ← pow_mul, ← pow_mul, mul_comm i (2 ^ log_n),
          mul_comm j (2 ^ log_n), pow_mul, pow_mul, inv_pow, hω1, inv_one,
          one_pow, one_pow, one_mul]
      have hzne : (ω⁻¹) ^ i * ω ^ j ≠ 1 := by
        intro hcon
        rw [inv_pow] at hcon
        have hij : ω ^ i = ω ^ j :=
          (inv_mul_eq_one₀ (pow_ne_zero i hω0)).mp hcon
        rcases Nat.lt_trichotomy i j with h | h | h
        · exact hcancel i j h hj' hij
        · exact hne h.symm
        · exact hcancel j i h hi hij.symm
      rw [geom_sum_eq hzne, hzN, sub_self, zero_div]
  rw [Finset.sum_congr rfl hcoeff]
  have hite : ∀ j ∈ Finset.range (2 ^ log_n),
      (if j = i then ((2 ^ log_n : ℕ) : K) else 0) • a j =
        if j = i then ((2 ^ log_n : ℕ) : K) • a j else 0 := by
    intro j _
    split_ifs with h
    · rfl
    · exact zero_smul K (a j)
  rw [Finset.sum_congr rfl hite,
    Finset.sum_ite_eq' (Finset.range (2 ^ log_n)) i
      (fun j => ((2 ^ log_n : ℕ) : K) • a j),
    if_pos (Finset.mem_range.mpr hi), Nat.cast_smul_eq_nsmul]

theorem serial_ec_fft_inverse_round_trip_witness :
    ((2:ℕ) ≤ 31 ∧ orderOf (2 : ZMod 5) = 2 ^ 2 ∧ (1:ℕ) < 2 ^ 2) ∧
      serial_ec_fft (serial_ec_fft (fun q => (q : ZMod 5)) (2 : ZMod 5) 2)
          (2 : ZMod 5)⁻¹ 2 1 =
        (2 ^ 2) • ((fun q => (q : ZMod 5)) 1) :=
  ⟨⟨by norm_num, by rw [orderOf_two_zmod5]; norm_num, by norm_num⟩,
    serial_ec_fft_inverse_round_trip (fun q => (q : ZMod 5)) (2 : ZMod 5) 2
      (by norm_num) (by rw [orderOf_two_zmod5]; norm_num) 1 (by norm_num)⟩

/-! ### Frame and read-dependency lemmas (memory safety) -/

section SafetyLemmas

variable {F : Type*} [CommRing F] {G : Type*} [AddCommGroup G] [Module F G]

theorem roundStep_frame (n : ℕ) (ω : F) (m : ℕ) (a : ℕ → G) (q : ℕ)
    (hq : n ≤ q) : roundStep n ω m a q = a q := by
  rw [roundStep]
  refine blockLoop_frame _ _ _ _ _ _ (Or.inr ?_)
  have h1 : n / (2 * m) * (2 * m) ≤ n := Nat.div_mul_le_self n (2 * m)
  have e : 2 * m * (n / (2 * m)) = n / (2 * m) * (2 * m) := by ring
  omega

theorem roundsLoop_frame (n : ℕ) (ω : F) :
    ∀ c m (a : ℕ → G) q, n ≤ q → roundsLoop n ω c m a q = a q := by
  intro c
  induction c with
  | zero => intro m a q _; rfl
  | succ c ih =>
      intro m a q hq
      show roundsLoop n ω c (2 * m) (roundStep n ω m a) q = a q
      rw [ih (2 * m) _ q hq, roundStep_frame n ω m a q hq]

theorem roundStep_congrOn (n : ℕ) (ω : F) (m : ℕ) (hm : 0 < m)
    (hdvd : 2 * m ∣ n) (a b : ℕ → G) (hab : ∀ q, q < n → a q = b q)
    (q : ℕ) (hq : q < n) : roundStep n ω m a q = roundStep n ω m b q := by
  rw [roundStep_point n ω m hm hdvd a q hq, roundStep_point n ω m hm hdvd b q hq,
    roundPoint, roundPoint]
  have hq2 : q % (2 * m) < m → q + m < n := by
    intro hc
    have hmod := Nat.div_add_mod q (2 * m)
    have hn : 2 * m * (n / (2 * m)) = n := Nat.mul_div_cancel' hdvd
    have hBlt : q / (2 * m) < n / (2 * m) := Nat.div_lt_div_of_lt_of_dvd hdvd hq
    have h5 : 2 * m * (q / (2 * m) + 1) ≤ 2 * m * (n / (2 * m)) :=
      Nat.mul_le_mul_left (2 * m) (Nat.succ_le_of_lt hBlt)
    have e2 : 2 * m * (q / (2 * m) + 1) = 2 * m * (q / (2 * m)) + 2 * m := by ring
    omega
  rcases Nat.lt_or_ge (q % (2 * m)) m with hc | hc
  · rw [if_pos hc, if_pos hc, hab q hq, hab (q + m) (hq2 hc)]
  · rw [if_neg (by omega), if_neg (by omega), hab q hq, hab (q - m) (by omega)]

theorem roundsLoop_congrOn (n : ℕ) (ω : F) :
    ∀ c m (a b : ℕ → G), 0 < m → m * 2 ^ c ∣ n →
      (∀ q, q < n → a q = b q) → ∀ q, q < n →
      roundsLoop n ω c m a q = roundsLoop n ω c m b q := by
  intro c
  induction c with
  | zero => intro m a b _ _ hab q hq; exact hab q hq
  | succ c ih =>
      intro m a b hm hdvd hab q hq
      show roundsLoop n ω c (2 * m) (roundStep n ω m a) q =
        roundsLoop n ω c (2 * m) (roundStep n ω m b) q
      refine ih (2 * m) _ _ (by omega) ?_ ?_ q hq
      · have e : 2 * m * 2 ^ c = m * 2 ^ (c + 1) := by ring
        rw [e]; exact hdvd
      · intro p hp
        refine roundStep_congrOn n ω m hm ?_ a b hab p hp
        exact dvd_trans ⟨2 ^ c, by ring⟩ hdvd

theorem serial_ec_fft_frame (a : ℕ → G) (ω : F) (l q : ℕ) (hq : 2 ^ l ≤ q) :
    serial_ec_fft a ω l q = a q := by
  rw [serial_ec_fft, roundsLoop_frame (2 ^ l) ω l 1 _ q hq,
    bitrevPass_frame l a (2 ^ l) le_rfl q hq]

theorem serial_ec_fft_congrOn (a b : ℕ → G) (ω : F) (l : ℕ)
    (hab : ∀ q, q < 2 ^ l → a q = b q) (p : ℕ) (hp : p < 2 ^ l) :
    serial_ec_fft a ω l p = serial_ec_fft b ω l p := by
  rw [serial_ec_fft, serial_ec_fft]
  refine roundsLoop_congrOn (2 ^ l) ω l 1 _ _ (by norm_num) (by rw [one_mul]) ?_ p hp
  intro q hq
  rw [bitrevPass_eq l a q hq, bitrevPass_eq l b q hq]
  exact hab (bitreverse q l) (bitreverse_lt l q)

theorem fillBuffer_congrOn (a b : ℕ → G) (ω : F) (l lt j : ℕ)
    (hab : ∀ q, q < 2 ^ l → a q = b q) (i : ℕ) :
    fillBuffer a ω l lt j i = fillBuffer b ω l lt j i := by
  rw [fillBuffer, fillBuffer, shuffleI_spec, shuffleI_spec]
  split_ifs with h
  · congr 1
    refine Finset.sum_congr rfl fun s _ => ?_
    congr 1
    exact hab _ (Nat.mod_lt _ (Nat.two_pow_pos _))
  · rfl

theorem parallel_ec_fft_congrOn (a b : ℕ → G) (ω : F) (l lt : ℕ) (hlt : lt ≤ l)
    (hab : ∀ q, q < 2 ^ l → a q = b q) (idx : ℕ) (hidx : idx < 2 ^ l) :
    parallel_ec_fft a ω l lt idx = parallel_ec_fft b ω l lt idx := by
  show subBuffer a ω l lt (idx &&& (2 ^ lt - 1)) (idx >>> lt) =
    subBuffer b ω l lt (idx &&& (2 ^ lt - 1)) (idx >>> lt)
  rw [subBuffer, subBuffer]
  have hpos : idx >>> lt < 2 ^ (l - lt) := by
    rw [Nat.shiftRight_eq_div_pow, Nat.div_lt_iff_lt_mul (Nat.two_pow_pos _)]
    calc idx < 2 ^ l := hidx
      _ = 2 ^ (l - lt) * 2 ^ lt := by rw [← pow_add]; congr 1; omega
  refine serial_ec_fft_congrOn _ _ _ _ ?_ _ hpos
  intro q _
  exact fillBuffer_congrOn a b ω l lt _ hab q

end SafetyLemmas

/-! ### Claim C10: all array accesses stay in bounds -/

/-- C10.  Under `a.len() = 2 ^ log_n` every access of `serial_ec_fft` and
`parallel_ec_fft` is in bounds.  In the functional model: `serial_ec_fft`
never writes outside `[0, 2^log_n)` (frame) and never reads outside it
(its restriction to `[0, 2^log_n)` depends only on the buffer there), the
same for `parallel_ec_fft`; the shuffle index `i + (s <<< log_new_n)` is
below `2 ^ log_n`, so its reduction mod `2 ^ log_n` changes nothing; and
the scatter indices `idx &&& (T-1)` and `idx >>> log_threads` are below
the sub-buffer count `T` and the sub-buffer length respectively. -/
theorem fft_accesses_in_bounds {K : Type*} [CommRing K] {G : Type*}
    [AddCommGroup G] [Module K G] (a b : ℕ → G) (ω : K) (l lt : ℕ)
    (hlt : lt ≤ l) :
    (∀ q, 2 ^ l ≤ q → serial_ec_fft a ω l q = a q)
    ∧ ((∀ q, q < 2 ^ l → a q = b q) → ∀ p, p < 2 ^ l →
        serial_ec_fft a ω l p = serial_ec_fft b ω l p)
    ∧ ((∀ q, q < 2 ^ l → a q = b q) → ∀ idx, idx < 2 ^ l →
        parallel_ec_fft a ω l lt idx = parallel_ec_fft b ω l lt idx)
    ∧ (∀ i s, i < 2 ^ (l - lt) → s < 2 ^ lt →
        (i + (s <<< (l - lt))) % 2 ^ l = i + (s <<< (l - lt)))
    ∧ (∀ idx, idx < 2 ^ l →
        idx &&& (2 ^ lt - 1) < 2 ^ lt ∧ idx >>> lt < 2 ^ (l - lt)) := by
  refine ⟨?_, ?_, ?_, ?_, ?_⟩
  · intro q hq
    exact serial_ec_fft_frame a ω l q hq
  · intro hab p hp
    exact serial_ec_fft_congrOn a b ω l hab p hp
  · intro hab idx hidx
    exact parallel_ec_fft_congrOn a b ω l lt hlt hab idx hidx
  · intro i s hi hs
    rw [Nat.shiftLeft_eq]
    refine Nat.mod_eq_of_lt ?_
    have hfact : 2 ^ lt * 2 ^ (l - lt) = 2 ^ l := by
      rw [← pow_add]; congr 1; omega
    have h3 : (s + 1) * 2 ^ (l - lt) ≤ 2 ^ lt * 2 ^ (l - lt) :=
      Nat.mul_le_mul_right _ hs
    have h4 : (s + 1) * 2 ^ (l - lt) = s * 2 ^ (l - lt) + 2 ^ (l - lt) := by ring
    omega
  · intro idx hidx
    constructor
    · rw [Nat.and_pow_two_sub_one_eq_mod]
      exact Nat.mod_lt _ (Nat.two_pow_pos _)
    · rw [Nat.shiftRight_eq_div_pow, Nat.div_lt_iff_lt_mul (Nat.two_pow_pos _)]
      calc idx < 2 ^ l := hidx
        _ = 2 ^ (l - lt) * 2 ^ lt := by rw [← pow_add]; congr 1; omega

theorem fft_accesses_in_bounds_witness :
    ((1:ℕ) ≤ 2) ∧
      ((∀ q, 2 ^ 2 ≤ q → serial_ec_fft (fun q : ℕ => (q : ℤ)) (1:ℤ) 2 q =
          (fun q : ℕ => (q : ℤ)) q)
      ∧ ((∀ q, q < 2 ^ 2 → (fun q : ℕ => (q : ℤ)) q = (fun q : ℕ => (q : ℤ)) q) →
          ∀ p, p < 2 ^ 2 →
          serial_ec_fft (fun q : ℕ => (q : ℤ)) (1:ℤ) 2 p =
            serial_ec_fft (fun q : ℕ => (q : ℤ)) (1:ℤ) 2 p)
      ∧ ((∀ q, q < 2 ^ 2 → (fun q : ℕ => (q : ℤ)) q = (fun q : ℕ => (q : ℤ)) q) →
          ∀ idx, idx < 2 ^ 2 →
          parallel_ec_fft (fun q : ℕ => (q : ℤ)) (1:ℤ) 2 1 idx =
            parallel_ec_fft (fun q : ℕ => (q : ℤ)) (1:ℤ) 2 1 idx)
      ∧ (∀ i s, i < 2 ^ (2 - 1) → s < 2 ^ 1 →
          (i + (s <<< (2 - 1))) % 2 ^ 2 = i + (s <<< (2 - 1)))
      ∧ (∀ idx, idx < 2 ^ 2 →
          idx &&& (2 ^ 1 - 1) < 2 ^ 1 ∧ idx >>> 1 < 2 ^ (2 - 1))) :=
  ⟨by norm_num,
    fft_accesses_in_bounds (fun q : ℕ => (q : ℤ)) (fun q : ℕ => (q : ℤ)) (1:ℤ) 2 1
      (by norm_num)⟩

/-! ### Claim C7: length violations are assertions, not error returns -/

/-- C7 counterexample.  With the `u32` truncation of `a.len()` modelled
(`ec_fft_cpu.rs` line 24), the assertion of `serial_ec_fft` is not
equivalent to `a.len() = 2 ^ log_n`: a buffer of length `2^32 + 2` with
`log_n = 1` passes the assert — its length truncates to `2 = 1 << 1` —
and the call does not panic, although the length differs from `2 ^ 1`.
So "panics exactly when `a.len() != 2^log_n`" is false at this input. -/
theorem fft_length_assertion_counterexample :
    (List.replicate (2 ^ 32 + 2) (0:ℤ)).length ≠ 2 ^ 1 ∧
      serial_ec_fft_run (List.replicate (2 ^ 32 + 2) (0:ℤ)) (1:ℤ) 1 ≠ none := by
  constructor
  · rw [List.length_replicate]
    norm_num
  · rw [serial_ec_fft_run, List.length_replicate,
      if_pos ⟨by norm_num, by norm_num⟩]
    exact Option.some_ne_none _

/-- C7, amended.  A length mismatch is a fatal assertion, not an error
value: for `log_n ≤ 31`, `serial_ec_fft` asserts
`a.len() as u32 == 1 << log_n` and so (in the panic-as-`none` model)
fails exactly when `a.length mod 2^32 ≠ 2 ^ log_n` — which for lengths
below `2^32` is exactly `a.length ≠ 2 ^ log_n` — and `parallel_ec_fft`
asserts `log_n >= log_threads` and so fails exactly when
`log_n < log_threads`; the return type of both is not `EcResult`, so no
`Simple(...)` value is produced. -/
theorem fft_length_assertions {K : Type*} [CommRing K] {G : Type*}
    [AddCommGroup G] [Module K G] (a b : List G) (ω ω2 : K)
    (log_n log_threads : ℕ) (hln : log_n ≤ 31) (hb : b.length = 2 ^ log_n) :
    (serial_ec_fft_run a ω log_n = none ↔ a.length % 2 ^ 32 ≠ 2 ^ log_n)
    ∧ (a.length < 2 ^ 32 →
        (serial_ec_fft_run a ω log_n = none ↔ a.length ≠ 2 ^ log_n))
    ∧ (parallel_ec_fft_run b ω2 log_n log_threads = none ↔
        log_n < log_threads) := by
  have hmain : serial_ec_fft_run a ω log_n = none ↔
      a.length % 2 ^ 32 ≠ 2 ^ log_n := by
    rw [serial_ec_fft_run]
    split_ifs with h
    · rw [h.2]
      simp
    · simp
      exact fun hcon => h ⟨hln, hcon⟩
  refine ⟨hmain, ?_, ?_⟩
  · intro hlen
    rw [hmain, Nat.mod_eq_of_lt hlen]
  · rw [parallel_ec_fft_run]
    split_ifs with h
    · simp
      omega
    · simp
      omega

theorem fft_length_assertions_witness :
    ((1:ℕ) ≤ 31 ∧ ([(1:ℤ), 2]).length = 2 ^ 1) ∧
      ((serial_ec_fft_run [(1:ℤ), 2] (1:ℤ) 1 = none ↔
          ([(1:ℤ), 2]).length % 2 ^ 32 ≠ 2 ^ 1)
      ∧ (([(1:ℤ), 2]).length < 2 ^ 32 →
          (serial_ec_fft_run [(1:ℤ), 2] (1:ℤ) 1 = none ↔
            ([(1:ℤ), 2]).length ≠ 2 ^ 1))
      ∧ (parallel_ec_fft_run [(1:ℤ), 2] (1:ℤ) 1 2 = none ↔ (1:ℕ) < 2)) :=
  ⟨⟨by norm_num, by rfl⟩,
    fft_length_assertions [(1:ℤ), 2] [(1:ℤ), 2] (1:ℤ) (1:ℤ) 1 2 (by norm_num)
      (by rfl)⟩

/-! ### Claim C8: the error enumeration -/

/-- C8 counterexample.  `EcError` does not surface five error kinds: the
enumeration of its variants has exactly four elements, so the claim that
the result channel carries five kinds (with arithmetic overflow among
them) is false. -/
theorem ecError_kinds_ne_five : Fintype.card EcErrorKind ≠ 5 := by decide

/-- C8 amended.  The unified result channel surfaces exactly four error
kinds — `Simple`, `Aborted`, `GpuTools` and `Io` — and each kind is
realised by a value of `EcError`; arithmetic overflow is a fatal panic of
the Rust runtime, not a value of `EcError`, so it is never returned
through `EcResult`. -/
theorem ecError_exactly_four_kinds :
    Fintype.card EcErrorKind = 4 ∧ Function.Surjective EcError.kindOf := by
  constructor
  · decide
  · intro k
    cases k with
    | simple => exact ⟨EcError.Simple ("overflow"), rfl⟩
    | aborted => exact ⟨EcError.Aborted, rfl⟩
    | gpuTools => exact ⟨EcError.GpuTools ⟨("e")⟩, rfl⟩
    | io => exact ⟨EcError.Io ⟨("e")⟩, rfl⟩

end EcGpu
